import Mathlib

/-!
# Go4KeePass: formatDuration, the progress estimate and the worker-pool coordination

Shallow embedding of `main.go`:

* `formatDuration` (lines 128-160) as a pure function on `Int`, with Go's truncating
  division and remainder;
* the progress estimate of lines 86-91 over a small model of `float64`;
* the goroutines of `main` (lines 54-124) as an interleaving transition system: one
  atomic step per channel operation, `run` executes a schedule of steps.
-/

namespace Go4KeePass

/-! ## formatDuration (lines 128-160) -/

/-- The five local variables of `formatDuration` after line 136. -/
structure Parts where
  weeks : Int
  days : Int
  hours : Int
  minutes : Int
  seconds : Int
deriving DecidableEq

/-- Lines 129-136: Go's `/` and `%` on `int` truncate toward zero. -/
def decompose (seconds : Int) : Parts :=
  let weeks := seconds.tdiv (7 * 24 * 3600)
  let seconds := seconds.tmod (7 * 24 * 3600)
  let days := seconds.tdiv (24 * 3600)
  let seconds := seconds.tmod (24 * 3600)
  let hours := seconds.tdiv 3600
  let seconds := seconds.tmod 3600
  let minutes := seconds.tdiv 60
  let seconds := seconds.tmod 60
  { weeks := weeks, days := days, hours := hours, minutes := minutes, seconds := seconds }

/-- The call `fmt.Sprintf("%d<suffix>", n)`: decimal rendering of `n` followed by the suffix. -/
def sprintD (n : Int) (suffix : String) : String := toString n ++ suffix

/-- Lines 138-153: the slice `parts`, grown by one conditional `append` per unit. -/
def renderParts (p : Parts) : List String :=
  let parts : List String := []
  let parts := if p.weeks > 0 then parts ++ [sprintD p.weeks " weeks"] else parts
  let parts := if p.days > 0 then parts ++ [sprintD p.days " days"] else parts
  let parts := if p.hours > 0 then parts ++ [sprintD p.hours " hours"] else parts
  let parts := if p.minutes > 0 then parts ++ [sprintD p.minutes " minutes"] else parts
  let parts := if p.seconds > 0 then parts ++ [sprintD p.seconds " seconds"] else parts
  parts

/-- Lines 128-160; `strings.Join(parts, ", ")` is `String.intercalate`. -/
def formatDuration (seconds : Int) : String :=
  let parts := renderParts (decompose seconds)
  if parts.length = 0 then "0 seconds" else ", ".intercalate parts

/-! ### Reference rendering and re-parsing, written from the specification -/

/-- One emitted component, written `<n> <unit>`. -/
def showUnit (c : Nat × String) : String := toString c.1 ++ " " ++ c.2

/-- The non-zero components of `S` seconds in descending order, with 7-day weeks and 24-hour
days, each paired with its unit name. -/
def shownUnits (S : Nat) : List (Nat × String) :=
  [(S / (7 * 24 * 3600), "weeks"), (S / (24 * 3600) % 7, "days"), (S / 3600 % 24, "hours"),
   (S / 60 % 60, "minutes"), (S % 60, "seconds")].filter (fun c => c.1 ≠ 0)

/-- The specification's `humanize`: the non-zero components joined with a comma and a space,
or the literal `0 seconds` when there is none. -/
def humanizeSpec (S : Nat) : String :=
  let shown := (shownUnits S).map showUnit
  if shown = [] then "0 seconds" else ", ".intercalate shown

/-- Number of seconds in one unit, by unit name. -/
def unitSeconds (u : String) : Option Nat :=
  if u = "weeks" then some (7 * 24 * 3600)
  else if u = "days" then some (24 * 3600)
  else if u = "hours" then some 3600
  else if u = "minutes" then some 60
  else if u = "seconds" then some 1
  else none

/-- Value of a string of decimal digits. -/
def digitsValue (ds : List Char) : Nat :=
  ds.foldl (fun acc c => acc * 10 + (c.toNat - 48)) 0

/-- Reads `<n> <unit>` items separated by a comma and a space and sums `n` times the
seconds of the unit; `none` when the text has another shape. -/
def reparseAux : Nat → List Char → Option Nat
  | 0, _ => none
  | fuel + 1, cs =>
    let ds := cs.takeWhile Char.isDigit
    if ds = [] then none else
    match cs.dropWhile Char.isDigit with
    | ' ' :: rest =>
      match unitSeconds (String.mk (rest.takeWhile Char.isAlpha)) with
      | none => none
      | some k =>
        match rest.dropWhile Char.isAlpha with
        | [] => some (digitsValue ds * k)
        | ',' :: ' ' :: more => (reparseAux fuel more).map (fun v => digitsValue ds * k + v)
        | _ => none
    | _ => none

/-- Re-parses a rendered duration into its total number of seconds. -/
def reparse (s : String) : Option Nat := reparseAux (s.length + 1) s.data

/-- Characters of one rendered component. -/
def partChars (c : Nat × String) : List Char := Nat.toDigits 10 c.1 ++ ' ' :: c.2.data

/-- Characters of the components after the first one, each preceded by its separator. -/
def tailChars (cs : List (Nat × String)) : List Char :=
  (cs.map (fun c => ',' :: ' ' :: partChars c)).flatten

/-- Sum of the components weighted by the seconds of their units. -/
def unitsTotal (cs : List (Nat × String)) : Nat :=
  (cs.map (fun c => c.1 * (unitSeconds c.2).getD 0)).sum

/-- The five unit names that `formatDuration` emits. -/
def unitNames : List String := ["weeks", "days", "hours", "minutes", "seconds"]

/-- Two's-complement wrap-around of a 64-bit signed integer operation. -/
def wrapInt64 (x : Int) : Int := (x + 2 ^ 63) % 2 ^ 64 - 2 ^ 63

/-! ## The progress estimate (lines 86-91)

`float64` values are modelled by their special-value structure: a finite value is a
rational, every arithmetic operation on finite operands is the exact result passed through
the rounding function `rnd` (which may overflow to an infinity), and the IEEE-754 rules
decide the operations involving a zero divisor, an infinity or a NaN. Zero is unsigned, so a
zero divisor stands for `+0`, the only zero `Duration.Minutes` returns. -/

/-- A `float64` value. -/
inductive F64 where
  | finite (x : ℚ)
  | posInf
  | negInf
  | nan
deriving DecidableEq

/-- Division of `float64` values. -/
def F64.div (rnd : ℚ → F64) : F64 → F64 → F64
  | .nan, _ => .nan
  | _, .nan => .nan
  | .finite x, .finite y =>
    if y = 0 then (if 0 < x then .posInf else if x < 0 then .negInf else .nan)
    else rnd (x / y)
  | .finite _, .posInf => .finite 0
  | .finite _, .negInf => .finite 0
  | .posInf, .finite y => if y < 0 then .negInf else .posInf
  | .negInf, .finite y => if y < 0 then .posInf else .negInf
  | .posInf, .posInf => .nan
  | .posInf, .negInf => .nan
  | .negInf, .posInf => .nan
  | .negInf, .negInf => .nan

/-- Multiplication of `float64` values. -/
def F64.mul (rnd : ℚ → F64) : F64 → F64 → F64
  | .nan, _ => .nan
  | _, .nan => .nan
  | .finite x, .finite y => rnd (x * y)
  | .finite x, .posInf => if 0 < x then .posInf else if x < 0 then .negInf else .nan
  | .finite x, .negInf => if 0 < x then .negInf else if x < 0 then .posInf else .nan
  | .posInf, .finite y => if 0 < y then .posInf else if y < 0 then .negInf else .nan
  | .negInf, .finite y => if 0 < y then .negInf else if y < 0 then .posInf else .nan
  | .posInf, .posInf => .posInf
  | .posInf, .negInf => .negInf
  | .negInf, .posInf => .negInf
  | .negInf, .negInf => .posInf

/-- Addition of `float64` values. -/
def F64.add (rnd : ℚ → F64) : F64 → F64 → F64
  | .nan, _ => .nan
  | _, .nan => .nan
  | .finite x, .finite y => rnd (x + y)
  | .finite _, .posInf => .posInf
  | .finite _, .negInf => .negInf
  | .posInf, .finite _ => .posInf
  | .negInf, .finite _ => .negInf
  | .posInf, .posInf => .posInf
  | .posInf, .negInf => .nan
  | .negInf, .posInf => .nan
  | .negInf, .negInf => .negInf

/-- The conversion `float64(n)` of an integer. -/
def F64.ofInt (rnd : ℚ → F64) (n : Int) : F64 := rnd (n : ℚ)

/-- The conversion `int(f)`: truncation toward zero; the result for a value that does not
fit (also an infinity or a NaN) is implementation-dependent and given by `undef`. -/
def F64.toInt (undef : Int) : F64 → Int
  | .finite x =>
    let t : Int := if 0 ≤ x then ⌊x⌋ else ⌈x⌉
    if -(2 : Int) ^ 63 ≤ t ∧ t < (2 : Int) ^ 63 then t else undef
  | _ => undef

/-- The method `Duration.Minutes` of the standard library, on a duration in nanoseconds:
`float64(d / Minute) + float64(d % Minute) / (60 * 1e9)`. -/
def durationMinutes (rnd : ℚ → F64) (d : Int) : F64 :=
  let min := d.tdiv 60000000000
  let nsec := d.tmod 60000000000
  F64.add rnd (F64.ofInt rnd min) (F64.div rnd (F64.ofInt rnd nsec) (.finite 60000000000))

/-- Lines 88-90: `attemptsPerMinute` and `estimatedSeconds` from the counter value returned by
`atomic.AddInt64`, the total and the elapsed time in nanoseconds. -/
def estimate (rnd : ℚ → F64) (undef : Int) (currentTested total elapsed : Int) : F64 × Int :=
  let attemptsPerMinute := F64.div rnd (F64.ofInt rnd currentTested) (durationMinutes rnd elapsed)
  let remaining := wrapInt64 (total - currentTested)
  let estimatedSeconds :=
    F64.toInt undef (F64.mul rnd (F64.div rnd (F64.ofInt rnd remaining) attemptsPerMinute)
      (.finite 60))
  (attemptsPerMinute, estimatedSeconds)

/-- Line 91: the text shown as estimated time remaining. -/
def estimatedTime (rnd : ℚ → F64) (undef : Int) (currentTested total elapsed : Int) : String :=
  formatDuration (estimate rnd undef currentTested total elapsed).2

/-- Rounding that keeps every rational: exact on all values a `float64` represents. -/
def exactRounding (q : ℚ) : F64 := .finite q

/-- Line 119: the argument of `time.After`, `time.Duration(len(passwords)) * time.Second`, an
`int64` count of nanoseconds. -/
def timeoutDuration (total : Int) : Int := wrapInt64 (wrapInt64 total * 1000000000)

/-! ## The goroutines of `main` (lines 54-124)

A configuration holds the program point of the main goroutine, of the dispatcher and of every
worker, the state of `passwordChan` (buffer and closed flag), of `doneChan` (closed flag), of
the wait group and of `tested`, and the trace of channel operations and printed lines so far.
`resultChan` is unbuffered and carries no state: a send on it is one step shared by the
sending worker and the receiving main goroutine. Time is not modelled: the timer of line 119
may fire whenever the main goroutine waits in its `select`. Each step holds one channel
operation together with the goroutine-local code around it; the return of a worker includes
its deferred `wg.Done()`. -/

/-- Line 14. -/
def workerCount : Nat := 10

/-- Program points of the main goroutine from line 63 on. -/
inductive MainPc where
  /-- In the loop of lines 63-98, `i` workers started. -/
  | startWorkers (i : Nat)
  /-- Before the `go` statement of line 101. -/
  | startDispatcher
  /-- The dispatcher is started, the `select` of line 115 is not yet entered. -/
  | entering
  /-- Waiting in the `select` of line 115. -/
  | select
  /-- An outcome is printed (line 117 or 120), before `close(doneChan)` (line 118 or 121). -/
  | closing
  /-- In `wg.Wait()`, line 124. -/
  | waiting
  /-- Returned from `main`: the process has exited. -/
  | returned
deriving DecidableEq

/-- Program points of the dispatcher goroutine (lines 101-112). -/
inductive DispPc where
  | notStarted
  /-- At the head of the `range` loop with `i` candidates consumed. -/
  | loop (i : Nat)
  /-- In the `default` branch, at the send of line 108. -/
  | send (i : Nat) (password : String)
  /-- Returned, after `close(passwordChan)`. -/
  | done
deriving DecidableEq

/-- Program points of a worker goroutine (lines 65-97). -/
inductive WorkerPc where
  /-- Waiting in the `select` of line 68. -/
  | idle
  /-- Received `password`, running the verifier (lines 74-76). -/
  | verifying (password : String)
  /-- The verifier succeeded, at the `select` of line 78. -/
  | publishing (password : String)
  | returned
deriving DecidableEq

/-- Observable events: channel operations and printed lines. -/
inductive Event where
  /-- The send of line 108 completed. -/
  | pushed (password : String)
  /-- The call `close(passwordChan)`: at line 105 (`onCancel = true`) or at line 111. -/
  | queueClosed (onCancel : Bool)
  /-- The progress line of line 92. -/
  | progress (currentTested : Int)
  /-- The line printed at 117. -/
  | found (password : String)
  /-- The line printed at 120. -/
  | noMatch
  /-- The call `close(doneChan)`, line 118 or 121. -/
  | doneClosed
deriving DecidableEq

/-- A configuration of the running program. -/
structure Config where
  main : MainPc
  disp : DispPc
  workers : List WorkerPc
  /-- Buffer of `passwordChan`, oldest first. -/
  queue : List String
  queueClosed : Bool
  doneClosed : Bool
  /-- Counter of the wait group. -/
  wg : Nat
  tested : Int
  /-- A run-time panic occurred (close of a closed channel, send on a closed channel, negative
  wait-group counter). -/
  panicked : Bool
  trace : List Event
deriving DecidableEq

/-- Scheduling choices: which goroutine moves, and for a `select` with several ready cases
which case is taken. -/
inductive Action where
  /-- Main: one iteration of the loop of line 63, or its exit. -/
  | startWorker
  /-- Main: line 101. -/
  | startDispatcher
  /-- Main: enters the `select` of line 115 (the timer of line 119 starts) and waits. -/
  | enterSelect
  /-- Dispatcher: its next operation. -/
  | dispatcher
  /-- Worker `k`: the case of line 69. -/
  | workerRecv (k : Nat)
  /-- Worker `k`: the case of line 93. -/
  | workerDone (k : Nat)
  /-- Worker `k`: the verifier returns (lines 76-92). -/
  | workerVerify (k : Nat)
  /-- Worker `k`: the `select` of lines 78-81, a receive by main at line 116 when main waits. -/
  | workerPublish (k : Nat)
  /-- Main: the case of line 119. -/
  | timeout
  /-- Main: line 118 or 121. -/
  | closeDone
  /-- Main: line 124 and the return. -/
  | waitReturn
deriving DecidableEq

/-- State at line 63: the channels are open and empty, no goroutine is started. -/
def init : Config :=
  { main := .startWorkers 0, disp := .notStarted, workers := [], queue := [],
    queueClosed := false, doneClosed := false, wg := 0, tested := 0, panicked := false,
    trace := [] }

/-- The call `wg.Done()`: panics on a negative counter. -/
def wgDone (c : Config) : Config :=
  if c.wg = 0 then { c with panicked := true } else { c with wg := c.wg - 1 }

/-- Worker `k` returns; the deferred `wg.Done()` of line 66 runs. -/
def workerReturn (c : Config) (k : Nat) : Config :=
  wgDone { c with workers := c.workers.set k .returned }

/-- The call `close(passwordChan)`: panics on a closed channel. -/
def closePasswordChan (c : Config) (onCancel : Bool) : Config :=
  if c.queueClosed then { c with panicked := true }
  else { c with queueClosed := true, trace := c.trace ++ [.queueClosed onCancel] }

/-- The call `close(doneChan)`, raising the cancellation signal: panics on a closed channel. -/
def closeDoneChan (c : Config) : Config :=
  if c.doneClosed then { c with panicked := true }
  else { c with doneClosed := true, trace := c.trace ++ [.doneClosed] }

/-- Lines 63-98: `wg.Add(1)` and the `go` statement, `workerCount` times. -/
def stepMainStartWorker (c : Config) : Option Config :=
  match c.main with
  | .startWorkers i =>
    if i < workerCount then
      some { c with wg := c.wg + 1, workers := c.workers ++ [.idle], main := .startWorkers (i + 1) }
    else some { c with main := .startDispatcher }
  | _ => none

/-- Line 101: the `go` statement that starts the dispatcher. -/
def stepMainStartDispatcher (c : Config) : Option Config :=
  match c.main with
  | .startDispatcher => some { c with disp := .loop 0, main := .entering }
  | _ => none

/-- Line 115: the main goroutine enters its `select` and waits for a result or the timer. -/
def stepMainEnterSelect (c : Config) : Option Config :=
  match c.main with
  | .entering => some { c with main := .select }
  | _ => none

/-- Lines 102-111. At the loop head the dispatcher leaves the loop when the candidates are
exhausted (line 111), takes the case of line 104 when `doneChan` is closed, and otherwise
enters `default`; the send of line 108 waits while the buffer is full. -/
def stepDispatcher (passwords : List String) (c : Config) : Option Config :=
  match c.disp with
  | .loop i =>
    match passwords[i]? with
    | none => some (closePasswordChan { c with disp := .done } false)
    | some password =>
      if c.doneClosed then some (closePasswordChan { c with disp := .done } true)
      else some { c with disp := .send i password }
  | .send i password =>
    if c.queueClosed then some { c with panicked := true }
    else if c.queue.length < workerCount then
      some { c with queue := c.queue ++ [password], disp := .loop (i + 1),
                    trace := c.trace ++ [.pushed password] }
    else none
  | _ => none

/-- Lines 69-72: receive from `passwordChan`; on a closed and drained channel the worker
returns. -/
def stepWorkerRecv (c : Config) (k : Nat) : Option Config :=
  match c.workers[k]? with
  | some .idle =>
    match c.queue with
    | password :: rest =>
      some { c with queue := rest, workers := c.workers.set k (.verifying password) }
    | [] => if c.queueClosed then some (workerReturn c k) else none
  | _ => none

/-- Lines 93-94: `doneChan` is closed, the worker returns. -/
def stepWorkerDone (c : Config) (k : Nat) : Option Config :=
  match c.workers[k]? with
  | some .idle => if c.doneClosed then some (workerReturn c k) else none
  | _ => none

/-- Lines 76-92: on success the worker goes to the `select` of line 78; on failure it adds 1
to `tested` (line 86), prints the progress line and loops. -/
def stepWorkerVerify (verify : String → Bool) (c : Config) (k : Nat) : Option Config :=
  match c.workers[k]? with
  | some (.verifying password) =>
    if verify password then some { c with workers := c.workers.set k (.publishing password) }
    else
      let currentTested := wrapInt64 (c.tested + 1)
      some { c with tested := currentTested, workers := c.workers.set k .idle,
                    trace := c.trace ++ [.progress currentTested] }
  | _ => none

/-- Lines 78-82: the send on `resultChan` proceeds when the main goroutine waits in its
`select`, which then prints the password (lines 116-117); otherwise `default` drops it. The
worker returns in both cases. -/
def stepWorkerPublish (c : Config) (k : Nat) : Option Config :=
  match c.workers[k]? with
  | some (.publishing password) =>
    match c.main with
    | .select =>
      some (workerReturn { c with main := .closing, trace := c.trace ++ [.found password] } k)
    | _ => some (workerReturn c k)
  | _ => none

/-- Lines 119-120: the timer fires. -/
def stepTimeout (c : Config) : Option Config :=
  match c.main with
  | .select => some { c with main := .closing, trace := c.trace ++ [.noMatch] }
  | _ => none

/-- Line 118 or 121. -/
def stepCloseDone (c : Config) : Option Config :=
  match c.main with
  | .closing => some (closeDoneChan { c with main := .waiting })
  | _ => none

/-- Line 124: `wg.Wait()` returns once the counter is zero, then `main` returns. -/
def stepWaitReturn (c : Config) : Option Config :=
  match c.main with
  | .waiting => if c.wg = 0 then some { c with main := .returned } else none
  | _ => none

/-- The step of one action, `none` when the action is not enabled. -/
def stepAction (passwords : List String) (verify : String → Bool) (c : Config) :
    Action → Option Config
  | .startWorker => stepMainStartWorker c
  | .startDispatcher => stepMainStartDispatcher c
  | .enterSelect => stepMainEnterSelect c
  | .dispatcher => stepDispatcher passwords c
  | .workerRecv k => stepWorkerRecv c k
  | .workerDone k => stepWorkerDone c k
  | .workerVerify k => stepWorkerVerify verify c k
  | .workerPublish k => stepWorkerPublish c k
  | .timeout => stepTimeout c
  | .closeDone => stepCloseDone c
  | .waitReturn => stepWaitReturn c

/-- One step of the program. Nothing runs after a panic or after `main` has returned. -/
def step (passwords : List String) (verify : String → Bool) (c : Config) (a : Action) :
    Option Config :=
  if c.panicked = true ∨ c.main = .returned then none else stepAction passwords verify c a

/-- Executes a schedule; `none` when one of its actions is not enabled. -/
def run (passwords : List String) (verify : String → Bool) (c : Config) :
    List Action → Option Config
  | [] => some c
  | a :: rest =>
    match step passwords verify c a with
    | none => none
    | some c' => run passwords verify c' rest

/-! ### Projections of the trace and invariants -/

/-- Sum of a weight over the workers. -/
def sumOver (f : WorkerPc → Nat) (ws : List WorkerPc) : Nat := (ws.map f).sum

/-- 1 for a worker that has not returned. -/
def live : WorkerPc → Nat
  | .returned => 0
  | _ => 1

/-- 1 for a worker that holds a candidate not yet verified. -/
def inFlight : WorkerPc → Nat
  | .verifying _ => 1
  | _ => 0

/-- The candidates pushed onto the queue, in order. -/
def pushedList (tr : List Event) : List String :=
  tr.filterMap (fun e => match e with | .pushed p => some p | _ => none)

/-- The closes of the queue, in order, each with its `onCancel` flag. -/
def closeList (tr : List Event) : List Bool :=
  tr.filterMap (fun e => match e with | .queueClosed b => some b | _ => none)

/-- The events of the dispatcher. -/
def dispEvents (tr : List Event) : List Event :=
  tr.filter (fun e => match e with | .pushed _ => true | .queueClosed _ => true | _ => false)

/-- The events of the coordinator: reported outcomes and raises of the cancellation signal. -/
def coordEvents (tr : List Event) : List Event :=
  tr.filter (fun e => match e with
    | .found _ => true | .noMatch => true | .doneClosed => true | _ => false)

/-- The passwords reported as found. -/
def foundList (tr : List Event) : List String :=
  tr.filterMap (fun e => match e with | .found p => some p | _ => none)

/-- A reported outcome: a found password that is a candidate the verifier accepts, or the
no-match line. -/
def validReport (passwords : List String) (verify : String → Bool) : Event → Prop
  | .found p => p ∈ passwords ∧ verify p = true
  | .noMatch => True
  | _ => False

/-- The coordinator's events at each of its program points: none before an outcome, one
outcome while closing, one outcome followed by one raise of the signal afterwards. -/
def coordShape (passwords : List String) (verify : String → Bool) (m : MainPc)
    (evs : List Event) : Prop :=
  match m with
  | .closing => ∃ r, evs = [r] ∧ validReport passwords verify r
  | .waiting => ∃ r, evs = [r, .doneClosed] ∧ validReport passwords verify r
  | .returned => ∃ r, evs = [r, .doneClosed] ∧ validReport passwords verify r
  | _ => evs = []

/-- A worker holds only candidates of the list, and publishes only accepted ones. -/
def workerOk (passwords : List String) (verify : String → Bool) : WorkerPc → Prop
  | .verifying p => p ∈ passwords
  | .publishing p => p ∈ passwords ∧ verify p = true
  | _ => True

/-- The dispatcher has been started. -/
def mainStarted : MainPc → Bool
  | .startWorkers _ => false
  | .startDispatcher => false
  | _ => true

/-- The main goroutine has closed `doneChan`. -/
def mainCancelled : MainPc → Bool
  | .waiting => true
  | .returned => true
  | _ => false

/-- Number of workers started. -/
def workersSpawned : MainPc → Nat
  | .startWorkers i => i
  | _ => workerCount

/-- Invariant of the reachable configurations. -/
structure Inv (passwords : List String) (verify : String → Bool) (c : Config) : Prop where
  notPanicked : c.panicked = false
  wgLive : c.wg = sumOver live c.workers
  spawned : c.workers.length = workersSpawned c.main ∧ workersSpawned c.main ≤ workerCount
  dispStarted : c.disp = .notStarted ↔ mainStarted c.main = false
  queueClosedIff : c.queueClosed = true ↔ c.disp = .done
  doneClosedIff : c.doneClosed = true ↔ mainCancelled c.main = true
  sendOk : ∀ i p, c.disp = .send i p → passwords[i]? = some p
  pushedTake : pushedList c.trace = passwords.take (pushedList c.trace).length
  pushLoop : ∀ i, c.disp = .loop i → (pushedList c.trace).length = i
  pushSend : ∀ i p, c.disp = .send i p → (pushedList c.trace).length = i
  pushNone : c.disp = .notStarted → pushedList c.trace = []
  closeLen : (closeList c.trace).length = if c.queueClosed then 1 else 0
  closeAll : false ∈ closeList c.trace → pushedList c.trace = passwords
  dispShape : dispEvents c.trace
      = (pushedList c.trace).map .pushed ++ (closeList c.trace).map .queueClosed
  coord : coordShape passwords verify c.main (coordEvents c.trace)
  workersOk : ∀ w ∈ c.workers, workerOk passwords verify w
  queueOk : ∀ p ∈ c.queue, p ∈ passwords
  returnedWg : c.main = .returned → c.wg = 0

/-- The action is the return of a verifier that rejects its candidate. -/
def isFailedVerification (verify : String → Bool) (c : Config) : Action → Bool
  | .workerVerify k =>
    match c.workers[k]? with
    | some (.verifying password) => !verify password
    | _ => false
  | _ => false

/-- The counter never runs ahead of the candidates taken from the queue. -/
def TestedInv (c : Config) : Prop :=
  0 ≤ c.tested ∧
  c.tested + (sumOver inFlight c.workers : Int) + (c.queue.length : Int)
    ≤ ((pushedList c.trace).length : Int)

/-- Weight of the main goroutine in the bound on the remaining steps. -/
def mainWeight : MainPc → Nat
  | .startWorkers i => 2 * (workerCount - i) + 7
  | .startDispatcher => 5
  | .entering => 4
  | .select => 3
  | .closing => 2
  | .waiting => 1
  | .returned => 0

/-- Weight of the dispatcher in the bound on the remaining steps. -/
def dispWeight (total : Nat) : DispPc → Nat
  | .notStarted => 5 * total + 2
  | .loop i => 5 * (total - i) + 1
  | .send i _ => 5 * (total - i)
  | .done => 0

/-- Weight of a worker in the bound on the remaining steps. -/
def workerWeight : WorkerPc → Nat
  | .idle => 1
  | .verifying _ => 3
  | .publishing _ => 2
  | .returned => 0

/-- An upper bound on the number of steps the program can still take. -/
def stepsLeft (total : Nat) (c : Config) : Nat :=
  mainWeight c.main + dispWeight total c.disp + 3 * c.queue.length
    + sumOver workerWeight c.workers

/-! ### Scenarios -/

/-- The candidate list of the specification's scenario. -/
def scenarioPasswords : List String := ["abc", "def", "ghi"]

/-- A verifier that accepts only `def`. -/
def scenarioVerify (p : String) : Bool := p == "def"

/-- Start of every schedule below: the ten workers and the dispatcher are started and the
main goroutine waits in its `select`. -/
def startup : List Action :=
  List.replicate 11 .startWorker ++ [.startDispatcher, .enterSelect]

/-- The dispatcher pushes the three candidates and closes the queue, workers 0 to 2 receive
one candidate each. -/
def verifyingSchedule : List Action :=
  startup ++ List.replicate 7 .dispatcher ++ [.workerRecv 0, .workerRecv 1, .workerRecv 2]

/-- The configuration reached by `verifyingSchedule`. -/
def verifyingConfig : Config :=
  { main := .select, disp := .done,
    workers := [.verifying "abc", .verifying "def", .verifying "ghi", .idle, .idle, .idle, .idle,
                .idle, .idle, .idle],
    queue := [], queueClosed := true, doneClosed := false, wg := 10, tested := 0,
    panicked := false,
    trace := [.pushed "abc", .pushed "def", .pushed "ghi", .queueClosed false] }

/-- Ten workers that have all returned. -/
def allReturned : List WorkerPc := List.replicate 10 .returned

/-- A schedule of the scenario in which worker 1 publishes `def` to the waiting coordinator. -/
def foundSchedule : List Action :=
  verifyingSchedule ++
  [.workerVerify 0, .workerVerify 1, .workerPublish 1, .closeDone, .workerVerify 2,
   .workerDone 0, .workerDone 2, .workerDone 3, .workerDone 4, .workerDone 5, .workerDone 6,
   .workerDone 7, .workerDone 8, .workerDone 9, .waitReturn]

/-- The configuration reached by `foundSchedule`. -/
def foundFinal : Config :=
  { main := .returned, disp := .done, workers := allReturned, queue := [], queueClosed := true,
    doneClosed := true, wg := 0, tested := 2, panicked := false,
    trace := [.pushed "abc", .pushed "def", .pushed "ghi", .queueClosed false, .progress 1,
              .found "def", .doneClosed, .progress 2] }

/-- A schedule of the scenario in which the timer fires while the three verifiers still run:
the later success of worker 1 finds no receiver and is dropped. -/
def timeoutSchedule : List Action :=
  verifyingSchedule ++
  [.timeout, .closeDone, .workerVerify 1, .workerPublish 1, .workerVerify 0, .workerVerify 2,
   .workerDone 0, .workerDone 2, .workerDone 3, .workerDone 4, .workerDone 5, .workerDone 6,
   .workerDone 7, .workerDone 8, .workerDone 9, .waitReturn]

/-- A schedule of the scenario in which worker 1 succeeds before the main goroutine has
entered its `select`: the success is dropped, every worker then leaves on the closed and
drained queue, and the timer ends the run. -/
def earlySuccessSchedule : List Action :=
  List.replicate 11 .startWorker ++ [.startDispatcher] ++ List.replicate 7 .dispatcher ++
  [.workerRecv 0, .workerRecv 1, .workerRecv 2, .workerVerify 1, .workerPublish 1, .enterSelect,
   .workerVerify 0, .workerVerify 2, .workerRecv 0, .workerRecv 2, .workerRecv 3, .workerRecv 4,
   .workerRecv 5, .workerRecv 6, .workerRecv 7, .workerRecv 8, .workerRecv 9, .timeout,
   .closeDone, .waitReturn]

/-- Twenty-one candidates, the first of which the verifier accepts. -/
def candidates21 : List String :=
  ["p0", "p1", "p2", "p3", "p4", "p5", "p6", "p7", "p8", "p9", "p10", "p11", "p12", "p13",
   "p14", "p15", "p16", "p17", "p18", "p19", "p20"]

/-- A verifier that accepts only `p0`. -/
def acceptFirst21 (p : String) : Bool := p == "p0"

/-- One action for each of the workers 0 to 9. -/
def allWorkers (f : Nat → Action) : List Action := (List.range 10).map f

/-- One action for each of the workers 1 to 9. -/
def lastWorkers (f : Nat → Action) : List Action := (List.range 9).map (fun k => f (k + 1))

/-- Every worker takes one candidate, the dispatcher refills the buffer and reaches the send
of `p20` with the buffer full; worker 0 succeeds and the coordinator reports it and closes
`doneChan`; the other verifiers fail, their workers take the `doneChan` case; `main` returns. -/
def blockedSchedule21 : List Action :=
  startup ++ List.replicate 20 .dispatcher ++ allWorkers .workerRecv ++
  List.replicate 21 .dispatcher ++ [.workerVerify 0, .workerPublish 0, .closeDone] ++
  lastWorkers .workerVerify ++ lastWorkers .workerDone ++ [.waitReturn]

/-- Twenty-two candidates, the fourth of which the verifier accepts. -/
def candidates22 : List String :=
  ["c0", "c1", "c2", "c3", "c4", "c5", "c6", "c7", "c8", "c9", "c10", "c11", "c12", "c13",
   "c14", "c15", "c16", "c17", "c18", "c19", "c20", "c21"]

/-- A verifier that accepts only `c3`. -/
def acceptFourth22 (p : String) : Bool := p == "c3"

/-- One action for each of the workers other than worker 3. -/
def otherWorkers (f : Nat → Action) : List Action := [0, 1, 2, 4, 5, 6, 7, 8, 9].map f

/-- Every worker takes one candidate, the dispatcher refills the buffer with `c10` to `c19` and
reaches the send of `c20`; worker 3 succeeds, the coordinator reports it and closes
`doneChan`; the other verifiers fail and their workers take the `doneChan` case. -/
def blockedSchedule22 : List Action :=
  startup ++ List.replicate 20 .dispatcher ++ allWorkers .workerRecv ++
  List.replicate 21 .dispatcher ++ [.workerVerify 3, .workerPublish 3, .closeDone] ++
  otherWorkers .workerVerify ++ otherWorkers .workerDone

/-! ## Lemmas on formatDuration -/

theorem digitChar_isDigit : ∀ k, k < 10 → (Nat.digitChar k).isDigit = true := by decide

theorem digitChar_value : ∀ k, k < 10 → (Nat.digitChar k).toNat - 48 = k := by decide

theorem toDigitsCore_isDigit (fuel : Nat) : ∀ (n : Nat) (ds : List Char),
    (∀ c ∈ ds, c.isDigit = true) → ∀ c ∈ Nat.toDigitsCore 10 fuel n ds, c.isDigit = true := by
  induction fuel with
  | zero => intro n ds h; simpa [Nat.toDigitsCore] using h
  | succ f ih =>
    intro n ds h
    have hd : (Nat.digitChar (n % 10)).isDigit = true :=
      digitChar_isDigit _ (Nat.mod_lt _ (by decide))
    have h2 : ∀ c ∈ Nat.digitChar (n % 10) :: ds, c.isDigit = true := by
      intro c hc
      rcases List.mem_cons.mp hc with rfl | hc
      · exact hd
      · exact h c hc
    simp only [Nat.toDigitsCore]
    split
    · exact h2
    · exact ih _ _ h2

theorem toDigitsCore_ne_nil (fuel : Nat) : ∀ (n : Nat) (ds : List Char),
    ds ≠ [] → Nat.toDigitsCore 10 fuel n ds ≠ [] := by
  induction fuel with
  | zero => intro n ds h; simpa [Nat.toDigitsCore] using h
  | succ f ih =>
    intro n ds _
    simp only [Nat.toDigitsCore]
    split
    · simp
    · exact ih _ _ (by simp)

theorem toDigitsCore_value (fuel : Nat) : ∀ (n : Nat) (ds : List Char), n < fuel →
    (Nat.toDigitsCore 10 fuel n ds).foldl (fun acc c => acc * 10 + (c.toNat - 48)) 0
      = ds.foldl (fun acc c => acc * 10 + (c.toNat - 48)) n := by
  induction fuel with
  | zero => intro n ds h; omega
  | succ f ih =>
    intro n ds h
    have hv := digitChar_value (n % 10) (Nat.mod_lt _ (by decide))
    simp only [Nat.toDigitsCore]
    split
    · rename_i h0
      have : n = n % 10 := by omega
      simp only [List.foldl_cons, hv]
      congr 1
      omega
    · rename_i h0
      rw [ih (n / 10) _ (by omega)]
      simp only [List.foldl_cons, hv]
      congr 1
      omega

theorem toDigits_isDigit (n : Nat) : ∀ c ∈ Nat.toDigits 10 n, c.isDigit = true :=
  toDigitsCore_isDigit _ _ _ (by simp)

theorem toDigits_ne_nil (n : Nat) : Nat.toDigits 10 n ≠ [] := by
  unfold Nat.toDigits
  simp only [Nat.toDigitsCore]
  split
  · simp
  · exact toDigitsCore_ne_nil _ _ _ (by simp)

theorem digitsValue_toDigits (n : Nat) : digitsValue (Nat.toDigits 10 n) = n := by
  unfold digitsValue Nat.toDigits
  rw [toDigitsCore_value _ _ _ (Nat.lt_succ_self n)]
  rfl

theorem unitNames_alpha : ∀ u ∈ unitNames, ∀ c ∈ u.data, c.isAlpha = true := by decide

theorem unitNames_seconds : ∀ u ∈ unitNames, (unitSeconds u).isSome = true := by decide

theorem partChars_split (c : Nat × String) (hu : c.2 ∈ unitNames) (X : List Char)
    (hX : X = [] ∨ ∃ more, X = ',' :: more) :
    (partChars c ++ X).takeWhile Char.isDigit = Nat.toDigits 10 c.1 ∧
    (partChars c ++ X).dropWhile Char.isDigit = ' ' :: (c.2.data ++ X) ∧
    (c.2.data ++ X).takeWhile Char.isAlpha = c.2.data ∧
    (c.2.data ++ X).dropWhile Char.isAlpha = X := by
  have hd := toDigits_isDigit c.1
  have ha := unitNames_alpha c.2 hu
  have hsp : Char.isDigit ' ' = false := by decide
  have hco : Char.isAlpha ',' = false := by decide
  refine ⟨?_, ?_, ?_, ?_⟩
  · simp only [partChars, List.append_assoc]
    rw [List.takeWhile_append_of_pos hd]
    simp [List.takeWhile_cons, hsp]
  · simp only [partChars, List.append_assoc]
    rw [List.dropWhile_append_of_pos hd]
    simp [List.dropWhile_cons, hsp]
  · rw [List.takeWhile_append_of_pos ha]
    rcases hX with rfl | ⟨more, rfl⟩
    · simp
    · simp [List.takeWhile_cons, hco]
  · rw [List.dropWhile_append_of_pos ha]
    rcases hX with rfl | ⟨more, rfl⟩
    · simp
    · simp [List.dropWhile_cons, hco]

theorem reparseAux_last (fuel : Nat) (c : Nat × String) (hu : c.2 ∈ unitNames) :
    reparseAux (fuel + 1) (partChars c) = some (c.1 * (unitSeconds c.2).getD 0) := by
  obtain ⟨h1, h2, h3, h4⟩ := partChars_split c hu [] (Or.inl rfl)
  simp only [List.append_nil] at h1 h2 h3 h4
  have hs := unitNames_seconds c.2 hu
  obtain ⟨k, hk⟩ := Option.isSome_iff_exists.mp hs
  have hmk : String.mk c.2.data = c.2 := rfl
  rw [reparseAux]
  simp only [h1, h2, h3, h4, hmk, hk, toDigits_ne_nil, if_false, digitsValue_toDigits,
    Option.getD_some]

theorem reparseAux_more (fuel : Nat) (c : Nat × String) (hu : c.2 ∈ unitNames)
    (more : List Char) :
    reparseAux (fuel + 1) (partChars c ++ ',' :: ' ' :: more)
      = (reparseAux fuel more).map (fun v => c.1 * (unitSeconds c.2).getD 0 + v) := by
  obtain ⟨h1, h2, h3, h4⟩ := partChars_split c hu (',' :: ' ' :: more) (Or.inr ⟨_, rfl⟩)
  have hs := unitNames_seconds c.2 hu
  obtain ⟨k, hk⟩ := Option.isSome_iff_exists.mp hs
  have hmk : String.mk c.2.data = c.2 := rfl
  rw [reparseAux]
  simp only [h1, h2, h3, h4, hmk, hk, toDigits_ne_nil, if_false, digitsValue_toDigits,
    Option.getD_some]

theorem reparseAux_join (cs : List (Nat × String)) : ∀ (c : Nat × String) (fuel : Nat),
    cs.length < fuel → (∀ d ∈ c :: cs, d.2 ∈ unitNames) →
    reparseAux fuel (partChars c ++ tailChars cs) = some (unitsTotal (c :: cs)) := by
  induction cs with
  | nil =>
    intro c fuel hf hu
    obtain ⟨f, rfl⟩ : ∃ f, fuel = f + 1 := ⟨fuel - 1, by simp at hf; omega⟩
    simp only [tailChars, List.map_nil, List.flatten_nil, List.append_nil]
    rw [reparseAux_last f c (hu c (by simp))]
    simp [unitsTotal]
  | cons d ds ih =>
    intro c fuel hf hu
    obtain ⟨f, rfl⟩ : ∃ f, fuel = f + 1 := ⟨fuel - 1, by simp at hf; omega⟩
    have hrest : tailChars (d :: ds) = ',' :: ' ' :: (partChars d ++ tailChars ds) := by
      simp [tailChars]
    rw [hrest, reparseAux_more f c (hu c (by simp))]
    rw [ih d f (by simp at hf; omega) (fun e he => hu e (List.mem_cons_of_mem _ he))]
    simp [unitsTotal]

theorem intercalate_go_data (s : String) (l : List String) : ∀ acc : String,
    (String.intercalate.go acc s l).data
      = acc.data ++ (l.map (fun a => s.data ++ a.data)).flatten := by
  induction l with
  | nil => intro acc; simp [String.intercalate.go]
  | cons a as ih =>
    intro acc
    simp [String.intercalate.go, ih, String.data_append]

theorem showUnit_data (c : Nat × String) : (showUnit c).data = partChars c := by
  have h : (toString c.1).data = Nat.toDigits 10 c.1 := rfl
  simp [showUnit, partChars, String.data_append, h]

theorem intercalate_showUnit_data (c : Nat × String) (cs : List (Nat × String)) :
    (", ".intercalate ((c :: cs).map showUnit)).data = partChars c ++ tailChars cs := by
  simp only [List.map_cons, String.intercalate, intercalate_go_data, showUnit_data, tailChars,
    List.map_map]
  congr 2
  apply List.map_congr_left
  intro a _
  simp [showUnit_data]

theorem length_le_tailChars (cs : List (Nat × String)) : cs.length ≤ (tailChars cs).length := by
  induction cs with
  | nil => simp
  | cons c cs ih =>
    have : tailChars (c :: cs) = ',' :: ' ' :: (partChars c ++ tailChars cs) := by
      simp [tailChars]
    rw [this]
    simp
    omega

theorem reparse_intercalate (c : Nat × String) (cs : List (Nat × String))
    (hu : ∀ d ∈ c :: cs, d.2 ∈ unitNames) :
    reparse (", ".intercalate ((c :: cs).map showUnit)) = some (unitsTotal (c :: cs)) := by
  unfold reparse
  rw [intercalate_showUnit_data]
  apply reparseAux_join cs c _ _ hu
  have h1 := length_le_tailChars cs
  have h2 : (", ".intercalate ((c :: cs).map showUnit)).length
      = (partChars c ++ tailChars cs).length := by
    rw [← intercalate_showUnit_data]; rfl
  rw [h2]
  simp
  omega

theorem unitsTotal_filter (l : List (Nat × String)) :
    unitsTotal (l.filter (fun c => c.1 ≠ 0)) = unitsTotal l := by
  induction l with
  | nil => rfl
  | cons c cs ih =>
    by_cases h : c.1 = 0
    · simp [List.filter_cons, h, unitsTotal] at ih ⊢
      exact ih
    · simp [List.filter_cons, h, unitsTotal] at ih ⊢
      exact ih

theorem shownUnits_names (S : Nat) : ∀ d ∈ shownUnits S, d.2 ∈ unitNames := by
  intro d hd
  have hd2 := List.mem_of_mem_filter hd
  simp only [List.mem_cons, List.mem_singleton, List.not_mem_nil, or_false] at hd2
  rcases hd2 with rfl | rfl | rfl | rfl | rfl <;> simp [unitNames]

theorem unitsTotal_shownUnits (S : Nat) : unitsTotal (shownUnits S) = S := by
  unfold shownUnits
  rw [unitsTotal_filter]
  have e1 : unitSeconds "weeks" = some 604800 := by decide
  have e2 : unitSeconds "days" = some 86400 := by decide
  have e3 : unitSeconds "hours" = some 3600 := by decide
  have e4 : unitSeconds "minutes" = some 60 := by decide
  have e5 : unitSeconds "seconds" = some 1 := by decide
  simp only [unitsTotal, List.map_cons, List.map_nil, List.sum_cons, List.sum_nil, e1, e2, e3,
    e4, e5, Option.getD_some]
  omega

theorem reparse_humanizeSpec (S : Nat) : reparse (humanizeSpec S) = some S := by
  unfold humanizeSpec
  cases h : shownUnits S with
  | nil =>
    have := unitsTotal_shownUnits S
    rw [h] at this
    simp only [List.map_nil, if_true]
    rw [← this]
    decide
  | cons c cs =>
    have hu := shownUnits_names S
    rw [h] at hu
    simp only [List.map_cons, reduceCtorEq, if_false]
    have := reparse_intercalate c cs hu
    simp only [List.map_cons] at this
    rw [this, ← h, unitsTotal_shownUnits]

theorem decompose_natCast (S : Nat) :
    decompose (S : Int) =
      { weeks := ((S / 604800 : Nat) : Int), days := ((S / 86400 % 7 : Nat) : Int),
        hours := ((S / 3600 % 24 : Nat) : Int), minutes := ((S / 60 % 60 : Nat) : Int),
        seconds := ((S % 60 : Nat) : Int) } := by
  show ({ weeks := ((S / 604800 : Nat) : Int), days := ((S % 604800 / 86400 : Nat) : Int),
          hours := ((S % 604800 % 86400 / 3600 : Nat) : Int),
          minutes := ((S % 604800 % 86400 % 3600 / 60 : Nat) : Int),
          seconds := ((S % 604800 % 86400 % 3600 % 60 : Nat) : Int) } : Parts) = _
  have a1 : S % 604800 / 86400 = S / 86400 % 7 := by omega
  have a2 : S % 604800 % 86400 / 3600 = S / 3600 % 24 := by omega
  have a3 : S % 604800 % 86400 % 3600 / 60 = S / 60 % 60 := by omega
  have a4 : S % 604800 % 86400 % 3600 % 60 = S % 60 := by omega
  rw [a1, a2, a3, a4]

theorem sprintD_natCast (n : Nat) (u : String) :
    sprintD (n : Int) (" " ++ u) = showUnit (n, u) := by
  show toString n ++ (" " ++ u) = toString n ++ " " ++ u
  rw [String.append_assoc]

theorem renderParts_natCast (w d h m s : Nat) :
    renderParts { weeks := (w : Int), days := (d : Int), hours := (h : Int),
                  minutes := (m : Int), seconds := (s : Int) }
      = ([(w, "weeks"), (d, "days"), (h, "hours"), (m, "minutes"), (s, "seconds")].filter
          (fun c => c.1 ≠ 0)).map showUnit := by
  have k1 := sprintD_natCast w "weeks"
  have k2 := sprintD_natCast d "days"
  have k3 := sprintD_natCast h "hours"
  have k4 := sprintD_natCast m "minutes"
  have k5 := sprintD_natCast s "seconds"
  have c1 : " " ++ "weeks" = " weeks" := by decide
  have c2 : " " ++ "days" = " days" := by decide
  have c3 : " " ++ "hours" = " hours" := by decide
  have c4 : " " ++ "minutes" = " minutes" := by decide
  have c5 : " " ++ "seconds" = " seconds" := by decide
  rw [c1] at k1; rw [c2] at k2; rw [c3] at k3; rw [c4] at k4; rw [c5] at k5
  by_cases hw : w = 0 <;> by_cases hd : d = 0 <;> by_cases hh : h = 0 <;>
    by_cases hm : m = 0 <;> by_cases hs : s = 0 <;>
    simp [renderParts, List.filter_cons, k1, k2, k3, k4, k5, hw, hd, hh, hm, hs,
      Nat.pos_iff_ne_zero]

theorem formatDuration_natCast (S : Nat) : formatDuration (S : Int) = humanizeSpec S := by
  unfold formatDuration humanizeSpec
  rw [decompose_natCast, renderParts_natCast]
  simp only [shownUnits, List.length_eq_zero]

/-! ## Lemmas on the goroutines -/

theorem sumOver_set (f : WorkerPc → Nat) : ∀ (ws : List WorkerPc) (k : Nat) (a b : WorkerPc),
    ws[k]? = some a → sumOver f (ws.set k b) + f a = sumOver f ws + f b := by
  intro ws
  induction ws with
  | nil => intro k a b h; simp at h
  | cons w ws ih =>
    intro k a b h
    cases k with
    | zero =>
      simp at h
      subst h
      simp [sumOver]
      omega
    | succ k =>
      simp at h
      have := ih k a b h
      simp [sumOver] at this ⊢
      omega

theorem sumOver_append (f : WorkerPc → Nat) (ws : List WorkerPc) (w : WorkerPc) :
    sumOver f (ws ++ [w]) = sumOver f ws + f w := by
  simp [sumOver]

theorem mem_of_getElem? {ws : List WorkerPc} {k : Nat} {w : WorkerPc} (h : ws[k]? = some w) :
    w ∈ ws := by
  rw [List.getElem?_eq_some] at h
  obtain ⟨hk, rfl⟩ := h
  exact List.getElem_mem hk

theorem inv_init (passwords : List String) (verify : String → Bool) :
    Inv passwords verify init := by
  constructor <;> simp [init, sumOver, workersSpawned, mainStarted, mainCancelled, pushedList,
    closeList, dispEvents, coordEvents, coordShape]

theorem pushedList_snoc (tr : List Event) (e : Event) :
    pushedList (tr ++ [e]) = pushedList tr ++ pushedList [e] := by
  simp [pushedList]

theorem closeList_snoc (tr : List Event) (e : Event) :
    closeList (tr ++ [e]) = closeList tr ++ closeList [e] := by
  simp [closeList]

theorem dispEvents_snoc (tr : List Event) (e : Event) :
    dispEvents (tr ++ [e]) = dispEvents tr ++ dispEvents [e] := by
  simp [dispEvents]

theorem coordEvents_snoc (tr : List Event) (e : Event) :
    coordEvents (tr ++ [e]) = coordEvents tr ++ coordEvents [e] := by
  simp [coordEvents]

section Preservation

variable {passwords : List String} {verify : String → Bool} {c c' : Config}

theorem inv_startWorker (h : Inv passwords verify c) (hs : stepMainStartWorker c = some c') :
    Inv passwords verify c' := by
  unfold stepMainStartWorker at hs
  split at hs
  · rename_i i hm
    have hsp := h.spawned
    have hds := h.dispStarted
    have hdc := h.doneClosedIff
    have hco := h.coord
    rw [hm] at hsp hds hdc hco
    split at hs
    · rename_i hi
      cases hs
      exact
        { notPanicked := h.notPanicked
          wgLive := by simp [sumOver_append, h.wgLive, live]
          spawned := by simp [workersSpawned] at hsp ⊢; omega
          dispStarted := by simpa [mainStarted] using hds
          queueClosedIff := h.queueClosedIff
          doneClosedIff := by simpa [mainCancelled] using hdc
          sendOk := h.sendOk
          pushedTake := h.pushedTake
          pushLoop := h.pushLoop
          pushSend := h.pushSend
          pushNone := h.pushNone
          closeLen := h.closeLen
          closeAll := h.closeAll
          dispShape := h.dispShape
          coord := by simpa [coordShape] using hco
          workersOk := by
            intro w hw
            simp at hw
            rcases hw with hw | rfl
            · exact h.workersOk w hw
            · simp [workerOk]
          queueOk := h.queueOk
          returnedWg := by simp }
    · rename_i hi
      cases hs
      exact
        { notPanicked := h.notPanicked
          wgLive := h.wgLive
          spawned := by simp [workersSpawned] at hsp ⊢; omega
          dispStarted := by simpa [mainStarted] using hds
          queueClosedIff := h.queueClosedIff
          doneClosedIff := by simpa [mainCancelled] using hdc
          sendOk := h.sendOk
          pushedTake := h.pushedTake
          pushLoop := h.pushLoop
          pushSend := h.pushSend
          pushNone := h.pushNone
          closeLen := h.closeLen
          closeAll := h.closeAll
          dispShape := h.dispShape
          coord := by simpa [coordShape] using hco
          workersOk := h.workersOk
          queueOk := h.queueOk
          returnedWg := by simp }
  · cases hs

theorem inv_startDispatcher (h : Inv passwords verify c)
    (hs : stepMainStartDispatcher c = some c') : Inv passwords verify c' := by
  unfold stepMainStartDispatcher at hs
  split at hs
  · rename_i hm
    have hds := h.dispStarted
    have hdc := h.doneClosedIff
    have hco := h.coord
    have hsp := h.spawned
    have hqc := h.queueClosedIff
    rw [hm] at hsp hds hdc hco
    have hd0 : c.disp = .notStarted := by simpa [mainStarted] using hds
    have htr := h.pushNone hd0
    rw [hd0] at hqc
    cases hs
    exact
      { h with
        spawned := by simpa [workersSpawned] using hsp
        dispStarted := by simp [mainStarted]
        queueClosedIff := by simpa using hqc
        doneClosedIff := by simpa [mainCancelled] using hdc
        sendOk := by simp
        pushLoop := by simp [htr]
        pushSend := by simp
        pushNone := by simp
        coord := by simpa [coordShape] using hco
        returnedWg := by simp }
  · cases hs

theorem inv_enterSelect (h : Inv passwords verify c) (hs : stepMainEnterSelect c = some c') :
    Inv passwords verify c' := by
  unfold stepMainEnterSelect at hs
  split at hs
  · rename_i hm
    have hds := h.dispStarted
    have hdc := h.doneClosedIff
    have hco := h.coord
    have hsp := h.spawned
    rw [hm] at hsp hds hdc hco
    cases hs
    exact
      { h with
        spawned := by simpa [workersSpawned] using hsp
        dispStarted := by simpa [mainStarted] using hds
        doneClosedIff := by simpa [mainCancelled] using hdc
        coord := by simpa [coordShape] using hco
        returnedWg := by simp }
  · cases hs

theorem inv_timeout (h : Inv passwords verify c) (hs : stepTimeout c = some c') :
    Inv passwords verify c' := by
  unfold stepTimeout at hs
  split at hs
  · rename_i hm
    have hds := h.dispStarted
    have hdc := h.doneClosedIff
    have hco := h.coord
    have hsp := h.spawned
    rw [hm] at hsp hds hdc hco
    simp only [coordShape] at hco
    cases hs
    exact
      { h with
        spawned := by simpa [workersSpawned] using hsp
        dispStarted := by simpa [mainStarted] using hds
        doneClosedIff := by simpa [mainCancelled] using hdc
        pushedTake := by simpa [pushedList] using h.pushedTake
        pushLoop := by simpa [pushedList] using h.pushLoop
        pushSend := by simpa [pushedList] using h.pushSend
        pushNone := by
          intro hd
          exact absurd hd (by simpa [mainStarted] using hds)
        closeLen := by simpa [closeList] using h.closeLen
        closeAll := by simpa [closeList, pushedList] using h.closeAll
        dispShape := by simpa [closeList, pushedList, dispEvents] using h.dispShape
        coord := ⟨.noMatch, by
          show coordEvents (c.trace ++ [.noMatch]) = [.noMatch]
          rw [coordEvents_snoc, hco]; rfl, trivial⟩
        returnedWg := by simp }
  · cases hs

theorem inv_closeDone (h : Inv passwords verify c) (hs : stepCloseDone c = some c') :
    Inv passwords verify c' := by
  unfold stepCloseDone at hs
  split at hs
  · rename_i hm
    have hds := h.dispStarted
    have hdc := h.doneClosedIff
    have hco := h.coord
    have hsp := h.spawned
    rw [hm] at hsp hds hdc hco
    have hnd : ¬ c.disp = .notStarted := by simpa [mainStarted] using hds
    have hdf : c.doneClosed = false := by simpa [mainCancelled] using hdc
    obtain ⟨r, hr, hv⟩ := hco
    have hc' : c' = { c with main := .waiting, doneClosed := true,
                             trace := c.trace ++ [.doneClosed] } := by
      simp [closeDoneChan, hdf] at hs
      exact hs.symm
    subst hc'
    exact
      { h with
        spawned := by simpa [workersSpawned] using hsp
        dispStarted := by simpa [mainStarted] using hds
        doneClosedIff := by simp [mainCancelled]
        pushedTake := by simpa [pushedList] using h.pushedTake
        pushLoop := by simpa [pushedList] using h.pushLoop
        pushSend := by simpa [pushedList] using h.pushSend
        pushNone := fun hd => absurd hd hnd
        closeLen := by simpa [closeList] using h.closeLen
        closeAll := by simpa [closeList, pushedList] using h.closeAll
        dispShape := by simpa [closeList, pushedList, dispEvents] using h.dispShape
        coord := ⟨r, by
          show coordEvents (c.trace ++ [.doneClosed]) = [r, .doneClosed]
          rw [coordEvents_snoc, hr]; rfl, hv⟩
        returnedWg := by simp }
  · cases hs

theorem inv_waitReturn (h : Inv passwords verify c) (hs : stepWaitReturn c = some c') :
    Inv passwords verify c' := by
  unfold stepWaitReturn at hs
  split at hs
  · rename_i hm
    have hds := h.dispStarted
    have hdc := h.doneClosedIff
    have hco := h.coord
    have hsp := h.spawned
    rw [hm] at hsp hds hdc hco
    split at hs
    · rename_i hw
      cases hs
      exact
        { h with
          spawned := by simpa [workersSpawned] using hsp
          dispStarted := by simpa [mainStarted] using hds
          doneClosedIff := by simpa [mainCancelled] using hdc
          coord := by simpa [coordShape] using hco
          returnedWg := fun _ => hw }
    · cases hs
  · cases hs

theorem inv_dispatcher_close (h : Inv passwords verify c) (i : Nat) (b : Bool)
    (hd : c.disp = .loop i) (hb : b = false → passwords[i]? = none) :
    Inv passwords verify
      { c with disp := .done, queueClosed := true, trace := c.trace ++ [.queueClosed b] } := by
  have hds := h.dispStarted
  have hqc := h.queueClosedIff
  have hcl := h.closeLen
  rw [hd] at hds hqc
  have hqf : c.queueClosed = false := by simpa using hqc
  rw [hqf] at hcl
  have hnil : closeList c.trace = [] := by simpa using hcl
  have hlen := h.pushLoop i hd
  have hpre := h.pushedTake
  exact
    { h with
      dispStarted := by simpa using hds
      queueClosedIff := by simp
      sendOk := by simp
      pushedTake := by simpa [pushedList] using hpre
      pushLoop := by simp
      pushSend := by simp
      pushNone := by simp
      closeLen := by
        show (closeList (c.trace ++ [.queueClosed b])).length = _
        rw [closeList_snoc, hnil]; rfl
      closeAll := by
        intro hmem
        have hmem' : false ∈ closeList (c.trace ++ [.queueClosed b]) := hmem
        rw [closeList_snoc, hnil] at hmem'
        have hbf : b = false := by simpa [closeList] using hmem'
        have hnone := hb hbf
        show pushedList (c.trace ++ [.queueClosed b]) = passwords
        rw [pushedList_snoc]
        have : pushedList [Event.queueClosed b] = [] := rfl
        rw [this, List.append_nil, hpre, hlen]
        apply List.take_of_length_le
        simpa using hnone
      dispShape := by
        show dispEvents (c.trace ++ [.queueClosed b])
          = (pushedList (c.trace ++ [.queueClosed b])).map Event.pushed
            ++ (closeList (c.trace ++ [.queueClosed b])).map Event.queueClosed
        rw [dispEvents_snoc, pushedList_snoc, closeList_snoc, h.dispShape, hnil]
        simp [dispEvents, pushedList, closeList]
      coord := by simpa [coordEvents] using h.coord }

theorem inv_dispatcher (h : Inv passwords verify c) (hs : stepDispatcher passwords c = some c') :
    Inv passwords verify c' := by
  unfold stepDispatcher at hs
  split at hs
  · rename_i i hd
    have hqc := h.queueClosedIff
    rw [hd] at hqc
    have hqf : c.queueClosed = false := by simpa using hqc
    split at hs
    · rename_i hnone
      simp [closePasswordChan, hqf] at hs
      subst hs
      exact inv_dispatcher_close h i false hd (fun _ => hnone)
    · rename_i p hp
      split at hs
      · simp [closePasswordChan, hqf] at hs
        subst hs
        exact inv_dispatcher_close h i true hd (by simp)
      · cases hs
        have hds := h.dispStarted
        rw [hd] at hds
        exact
          { h with
            dispStarted := by simpa using hds
            queueClosedIff := by simpa using hqf
            sendOk := by
              intro j q hj
              simp at hj
              obtain ⟨rfl, rfl⟩ := hj
              exact hp
            pushLoop := by simp
            pushSend := by
              intro j q hj
              simp at hj
              obtain ⟨rfl, rfl⟩ := hj
              exact h.pushLoop _ hd
            pushNone := by simp }
  · rename_i i p hd
    have hqc := h.queueClosedIff
    have hds := h.dispStarted
    have hcl := h.closeLen
    rw [hd] at hqc hds
    have hqf : c.queueClosed = false := by simpa using hqc
    rw [hqf] at hcl
    have hnil : closeList c.trace = [] := by simpa using hcl
    have hp := h.sendOk i p hd
    have hlen := h.pushSend i p hd
    have hpre := h.pushedTake
    have hpm : p ∈ passwords := by
      rw [List.getElem?_eq_some] at hp
      obtain ⟨hk, rfl⟩ := hp
      exact List.getElem_mem hk
    simp only [hqf, Bool.false_eq_true, if_false] at hs
    split at hs
    · cases hs
      have hpl : pushedList (c.trace ++ [.pushed p]) = pushedList c.trace ++ [p] := by
        rw [pushedList_snoc]; rfl
      exact
        { h with
          dispStarted := by simpa using hds
          queueClosedIff := by simp
          sendOk := by simp
          pushedTake := by
            show pushedList (c.trace ++ [.pushed p])
              = passwords.take (pushedList (c.trace ++ [.pushed p])).length
            rw [hpl, List.length_append, hlen, List.length_singleton, List.take_succ, hp,
              hpre, hlen]
            simp
          pushLoop := by
            intro j hj
            simp at hj
            subst hj
            show (pushedList (c.trace ++ [.pushed p])).length = i + 1
            rw [hpl, List.length_append, hlen, List.length_singleton]
          pushSend := by simp
          pushNone := by simp
          closeLen := by
            show (closeList (c.trace ++ [.pushed p])).length = _
            rw [closeList_snoc, hnil]; rfl
          closeAll := by
            intro hmem
            have hmem' : false ∈ closeList (c.trace ++ [.pushed p]) := hmem
            rw [closeList_snoc, hnil] at hmem'
            simp [closeList] at hmem'
          dispShape := by
            show dispEvents (c.trace ++ [.pushed p])
              = (pushedList (c.trace ++ [.pushed p])).map Event.pushed
                ++ (closeList (c.trace ++ [.pushed p])).map Event.queueClosed
            rw [dispEvents_snoc, hpl, closeList_snoc, h.dispShape, hnil]
            simp [dispEvents, closeList]
          coord := by simpa [coordEvents] using h.coord
          queueOk := by
            intro q hq
            simp at hq
            rcases hq with hq | rfl
            · exact h.queueOk q hq
            · exact hpm }
    · cases hs
  · cases hs

theorem inv_setWorker (h : Inv passwords verify c) (k : Nat) (w w' : WorkerPc)
    (hk : c.workers[k]? = some w) (hl : live w' = live w) (hok : workerOk passwords verify w') :
    Inv passwords verify { c with workers := c.workers.set k w' } := by
  have hsum := sumOver_set live c.workers k w w' hk
  exact
    { h with
      wgLive := by
        show c.wg = sumOver live (c.workers.set k w')
        rw [h.wgLive]; omega
      spawned := by simpa using h.spawned
      workersOk := by
        intro x hx
        rcases List.mem_or_eq_of_mem_set hx with hx | rfl
        · exact h.workersOk x hx
        · exact hok }

theorem inv_workerReturn (h : Inv passwords verify c) (k : Nat) (w : WorkerPc)
    (hk : c.workers[k]? = some w) (hl : live w = 1) :
    Inv passwords verify (workerReturn c k) := by
  have hsum := sumOver_set live c.workers k w .returned hk
  have hwg := h.wgLive
  have hl0 : live WorkerPc.returned = 0 := rfl
  have hne : c.wg ≠ 0 := by omega
  have he : workerReturn c k
      = { c with workers := c.workers.set k .returned, wg := c.wg - 1 } := by
    simp [workerReturn, wgDone, hne]
  rw [he]
  exact
    { h with
      wgLive := by
        show c.wg - 1 = sumOver live (c.workers.set k .returned)
        omega
      spawned := by simpa using h.spawned
      workersOk := by
        intro x hx
        rcases List.mem_or_eq_of_mem_set hx with hx | rfl
        · exact h.workersOk x hx
        · trivial
      returnedWg := fun hm => absurd (h.returnedWg hm) hne }

theorem inv_traceOther (h : Inv passwords verify c) (e : Event) (he1 : pushedList [e] = [])
    (he2 : closeList [e] = []) (he3 : dispEvents [e] = []) (he4 : coordEvents [e] = []) :
    Inv passwords verify { c with trace := c.trace ++ [e] } := by
  have e1 : pushedList (c.trace ++ [e]) = pushedList c.trace := by
    rw [pushedList_snoc, he1, List.append_nil]
  have e2 : closeList (c.trace ++ [e]) = closeList c.trace := by
    rw [closeList_snoc, he2, List.append_nil]
  have e3 : dispEvents (c.trace ++ [e]) = dispEvents c.trace := by
    rw [dispEvents_snoc, he3, List.append_nil]
  have e4 : coordEvents (c.trace ++ [e]) = coordEvents c.trace := by
    rw [coordEvents_snoc, he4, List.append_nil]
  exact
    { h with
      pushedTake := by
        show pushedList (c.trace ++ [e]) = passwords.take (pushedList (c.trace ++ [e])).length
        rw [e1]; exact h.pushedTake
      pushLoop := by
        intro i hi
        show (pushedList (c.trace ++ [e])).length = i
        rw [e1]; exact h.pushLoop i hi
      pushSend := by
        intro i p hi
        show (pushedList (c.trace ++ [e])).length = i
        rw [e1]; exact h.pushSend i p hi
      pushNone := by
        intro hd
        show pushedList (c.trace ++ [e]) = []
        rw [e1]; exact h.pushNone hd
      closeLen := by
        show (closeList (c.trace ++ [e])).length = _
        rw [e2]; exact h.closeLen
      closeAll := by
        intro hm
        have hm' : false ∈ closeList (c.trace ++ [e]) := hm
        rw [e2] at hm'
        show pushedList (c.trace ++ [e]) = passwords
        rw [e1]; exact h.closeAll hm'
      dispShape := by
        show dispEvents (c.trace ++ [e]) = (pushedList (c.trace ++ [e])).map Event.pushed
          ++ (closeList (c.trace ++ [e])).map Event.queueClosed
        rw [e1, e2, e3]; exact h.dispShape
      coord := by
        show coordShape passwords verify c.main (coordEvents (c.trace ++ [e]))
        rw [e4]; exact h.coord }

theorem inv_found (h : Inv passwords verify c) (p : String) (hm : c.main = .select)
    (hp : p ∈ passwords) (hv : verify p = true) :
    Inv passwords verify { c with main := .closing, trace := c.trace ++ [.found p] } := by
  have hds := h.dispStarted
  have hdc := h.doneClosedIff
  have hco := h.coord
  have hsp := h.spawned
  rw [hm] at hsp hds hdc hco
  simp only [coordShape] at hco
  have hnd : ¬ c.disp = .notStarted := by simpa [mainStarted] using hds
  exact
    { h with
      spawned := by simpa [workersSpawned] using hsp
      dispStarted := by simpa [mainStarted] using hds
      doneClosedIff := by simpa [mainCancelled] using hdc
      pushedTake := by simpa [pushedList] using h.pushedTake
      pushLoop := by simpa [pushedList] using h.pushLoop
      pushSend := by simpa [pushedList] using h.pushSend
      pushNone := fun hd => absurd hd hnd
      closeLen := by simpa [closeList] using h.closeLen
      closeAll := by simpa [closeList, pushedList] using h.closeAll
      dispShape := by simpa [closeList, pushedList, dispEvents] using h.dispShape
      coord := ⟨.found p, by
        show coordEvents (c.trace ++ [.found p]) = [.found p]
        rw [coordEvents_snoc, hco]; rfl, ⟨hp, hv⟩⟩
      returnedWg := by simp }

theorem inv_workerRecv (h : Inv passwords verify c) (k : Nat)
    (hs : stepWorkerRecv c k = some c') : Inv passwords verify c' := by
  unfold stepWorkerRecv at hs
  split at hs
  · rename_i hk
    split at hs
    · rename_i p rest hq
      cases hs
      have hpm : p ∈ passwords := h.queueOk p (by simp [hq])
      have h1 := inv_setWorker h k .idle (.verifying p) hk rfl hpm
      exact
        { h1 with
          queueOk := by
            intro q hq'
            exact h.queueOk q (by simp [hq, hq']) }
    · split at hs
      · cases hs
        exact inv_workerReturn h k .idle hk rfl
      · cases hs
  · cases hs

theorem inv_workerDone (h : Inv passwords verify c) (k : Nat)
    (hs : stepWorkerDone c k = some c') : Inv passwords verify c' := by
  unfold stepWorkerDone at hs
  split at hs
  · rename_i hk
    split at hs
    · cases hs
      exact inv_workerReturn h k .idle hk rfl
    · cases hs
  · cases hs

theorem inv_workerVerify (h : Inv passwords verify c) (k : Nat)
    (hs : stepWorkerVerify verify c k = some c') : Inv passwords verify c' := by
  unfold stepWorkerVerify at hs
  split at hs
  · rename_i p hk
    have hok : p ∈ passwords := h.workersOk _ (mem_of_getElem? hk)
    split at hs
    · rename_i hv
      cases hs
      exact inv_setWorker h k (.verifying p) (.publishing p) hk rfl ⟨hok, hv⟩
    · cases hs
      have h1 := inv_setWorker h k (.verifying p) .idle hk rfl trivial
      have h2 := inv_traceOther h1 (.progress (wrapInt64 (c.tested + 1))) rfl rfl rfl rfl
      exact { h2 with }
  · cases hs

theorem inv_workerPublish (h : Inv passwords verify c) (k : Nat)
    (hs : stepWorkerPublish c k = some c') : Inv passwords verify c' := by
  unfold stepWorkerPublish at hs
  split at hs
  · rename_i p hk
    have hok : p ∈ passwords ∧ verify p = true := h.workersOk _ (mem_of_getElem? hk)
    split at hs
    · rename_i hm
      cases hs
      have h1 := inv_found h p hm hok.1 hok.2
      exact inv_workerReturn h1 k (.publishing p) hk rfl
    · cases hs
      exact inv_workerReturn h k (.publishing p) hk rfl
  · cases hs

theorem inv_step (h : Inv passwords verify c) (a : Action)
    (hs : step passwords verify c a = some c') : Inv passwords verify c' := by
  unfold step at hs
  split at hs
  · cases hs
  · cases a with
    | startWorker => exact inv_startWorker h hs
    | startDispatcher => exact inv_startDispatcher h hs
    | enterSelect => exact inv_enterSelect h hs
    | dispatcher => exact inv_dispatcher h hs
    | workerRecv k => exact inv_workerRecv h k hs
    | workerDone k => exact inv_workerDone h k hs
    | workerVerify k => exact inv_workerVerify h k hs
    | workerPublish k => exact inv_workerPublish h k hs
    | timeout => exact inv_timeout h hs
    | closeDone => exact inv_closeDone h hs
    | waitReturn => exact inv_waitReturn h hs

theorem inv_run (sched : List Action) : ∀ {c c' : Config}, Inv passwords verify c →
    run passwords verify c sched = some c' → Inv passwords verify c' := by
  induction sched with
  | nil =>
    intro c c' h hr
    simp [run] at hr
    subst hr
    exact h
  | cons a rest ih =>
    intro c c' h hr
    simp only [run] at hr
    split at hr
    · cases hr
    · rename_i c1 hs
      exact ih (inv_step h a hs) hr

theorem inv_reachable (sched : List Action) {c : Config}
    (hr : run passwords verify init sched = some c) : Inv passwords verify c :=
  inv_run sched (inv_init passwords verify) hr

end Preservation

theorem wgDone_proj (c : Config) :
    (wgDone c).tested = c.tested ∧ (wgDone c).workers = c.workers ∧
    (wgDone c).queue = c.queue ∧ (wgDone c).trace = c.trace ∧ (wgDone c).main = c.main ∧
    (wgDone c).disp = c.disp := by
  unfold wgDone
  split <;> simp

theorem workerReturn_proj (c : Config) (k : Nat) :
    (workerReturn c k).tested = c.tested ∧
    (workerReturn c k).workers = c.workers.set k .returned ∧
    (workerReturn c k).queue = c.queue ∧ (workerReturn c k).trace = c.trace ∧
    (workerReturn c k).main = c.main ∧ (workerReturn c k).disp = c.disp := by
  unfold workerReturn
  obtain ⟨h1, h2, h3, h4, h5, h6⟩ := wgDone_proj { c with workers := c.workers.set k .returned }
  exact ⟨h1, h2, h3, h4, h5, h6⟩

theorem closePasswordChan_proj (c : Config) (b : Bool) :
    (closePasswordChan c b).tested = c.tested ∧ (closePasswordChan c b).workers = c.workers ∧
    (closePasswordChan c b).queue = c.queue ∧
    pushedList (closePasswordChan c b).trace = pushedList c.trace ∧
    (closePasswordChan c b).main = c.main ∧ (closePasswordChan c b).disp = c.disp := by
  unfold closePasswordChan
  split
  · simp
  · refine ⟨rfl, rfl, rfl, ?_, rfl, rfl⟩
    show pushedList (c.trace ++ [.queueClosed b]) = pushedList c.trace
    rw [pushedList_snoc]
    exact List.append_nil _

theorem closeDoneChan_proj (c : Config) :
    (closeDoneChan c).tested = c.tested ∧ (closeDoneChan c).workers = c.workers ∧
    (closeDoneChan c).queue = c.queue ∧
    pushedList (closeDoneChan c).trace = pushedList c.trace ∧
    (closeDoneChan c).main = c.main ∧ (closeDoneChan c).disp = c.disp := by
  unfold closeDoneChan
  split
  · simp
  · refine ⟨rfl, rfl, rfl, ?_, rfl, rfl⟩
    show pushedList (c.trace ++ [.doneClosed]) = pushedList c.trace
    rw [pushedList_snoc]
    exact List.append_nil _

theorem step_tested {passwords : List String} {verify : String → Bool} {c c' : Config}
    {a : Action} (hs : step passwords verify c a = some c') :
    c'.tested = if isFailedVerification verify c a = true then wrapInt64 (c.tested + 1)
                else c.tested := by
  unfold step at hs
  split at hs
  · cases hs
  · cases a with
    | startWorker =>
      replace hs : stepMainStartWorker c = some c' := hs
      unfold stepMainStartWorker at hs
      simp only [isFailedVerification]
      split at hs
      · split at hs <;> cases hs <;> rfl
      · cases hs
    | startDispatcher =>
      replace hs : stepMainStartDispatcher c = some c' := hs
      unfold stepMainStartDispatcher at hs
      split at hs
      · cases hs; rfl
      · cases hs
    | enterSelect =>
      replace hs : stepMainEnterSelect c = some c' := hs
      unfold stepMainEnterSelect at hs
      split at hs
      · cases hs; rfl
      · cases hs
    | dispatcher =>
      replace hs : stepDispatcher passwords c = some c' := hs
      unfold stepDispatcher at hs
      simp only [isFailedVerification]
      split at hs
      · split at hs
        · cases hs; exact (closePasswordChan_proj _ _).1
        · split at hs
          · cases hs; exact (closePasswordChan_proj _ _).1
          · cases hs; rfl
      · split at hs
        · cases hs; rfl
        · split at hs
          · cases hs; rfl
          · cases hs
      · cases hs
    | workerRecv k =>
      replace hs : stepWorkerRecv c k = some c' := hs
      unfold stepWorkerRecv at hs
      simp only [isFailedVerification]
      split at hs
      · split at hs
        · cases hs; rfl
        · split at hs
          · cases hs; exact (workerReturn_proj _ _).1
          · cases hs
      · cases hs
    | workerDone k =>
      replace hs : stepWorkerDone c k = some c' := hs
      unfold stepWorkerDone at hs
      simp only [isFailedVerification]
      split at hs
      · split at hs
        · cases hs; exact (workerReturn_proj _ _).1
        · cases hs
      · cases hs
    | workerVerify k =>
      replace hs : stepWorkerVerify verify c k = some c' := hs
      unfold stepWorkerVerify at hs
      split at hs
      · rename_i p hk
        split at hs
        · rename_i hv
          cases hs
          simp [isFailedVerification, hk, hv]
        · rename_i hv
          cases hs
          simp [isFailedVerification, hk, hv]
      · cases hs
    | workerPublish k =>
      replace hs : stepWorkerPublish c k = some c' := hs
      unfold stepWorkerPublish at hs
      simp only [isFailedVerification]
      split at hs
      · split at hs
        · cases hs; exact (workerReturn_proj _ _).1
        · cases hs; exact (workerReturn_proj _ _).1
      · cases hs
    | timeout =>
      replace hs : stepTimeout c = some c' := hs
      unfold stepTimeout at hs
      split at hs
      · cases hs; rfl
      · cases hs
    | closeDone =>
      replace hs : stepCloseDone c = some c' := hs
      unfold stepCloseDone at hs
      split at hs
      · cases hs; exact (closeDoneChan_proj _).1
      · cases hs
    | waitReturn =>
      replace hs : stepWaitReturn c = some c' := hs
      unfold stepWaitReturn at hs
      split at hs
      · split at hs
        · cases hs; rfl
        · cases hs
      · cases hs

theorem pushed_le_total {passwords : List String} {verify : String → Bool} {c : Config}
    (h : Inv passwords verify c) : (pushedList c.trace).length ≤ passwords.length := by
  have := h.pushedTake
  rw [this]
  simp

theorem wrapInt64_small (x : Int) (h0 : 0 ≤ x) (h1 : x < 2 ^ 63) : wrapInt64 x = x := by
  unfold wrapInt64
  norm_num at h1 ⊢
  omega

theorem testedInv_init : TestedInv init := by
  simp [TestedInv, init, sumOver, pushedList]

theorem testedInv_step {passwords : List String} {verify : String → Bool} {c c' : Config}
    {a : Action} (hT : passwords.length < 2 ^ 63) (h : Inv passwords verify c)
    (ht : TestedInv c) (hs : step passwords verify c a = some c') : TestedInv c' := by
  have hPT := pushed_le_total h
  obtain ⟨ht0, ht1⟩ := ht
  unfold step at hs
  split at hs
  · cases hs
  · cases a with
    | startWorker =>
      replace hs : stepMainStartWorker c = some c' := hs
      unfold stepMainStartWorker at hs
      split at hs
      · split at hs
        · cases hs
          refine ⟨ht0, ?_⟩
          show c.tested + (sumOver inFlight (c.workers ++ [.idle]) : Int)
            + (c.queue.length : Int) ≤ ((pushedList c.trace).length : Int)
          rw [sumOver_append]
          simpa [inFlight] using ht1
        · cases hs; exact ⟨ht0, ht1⟩
      · cases hs
    | startDispatcher =>
      replace hs : stepMainStartDispatcher c = some c' := hs
      unfold stepMainStartDispatcher at hs
      split at hs
      · cases hs; exact ⟨ht0, ht1⟩
      · cases hs
    | enterSelect =>
      replace hs : stepMainEnterSelect c = some c' := hs
      unfold stepMainEnterSelect at hs
      split at hs
      · cases hs; exact ⟨ht0, ht1⟩
      · cases hs
    | dispatcher =>
      replace hs : stepDispatcher passwords c = some c' := hs
      unfold stepDispatcher at hs
      split at hs
      · split at hs
        · cases hs
          obtain ⟨e1, e2, e3, e4, -, -⟩ := closePasswordChan_proj { c with disp := .done } false
          unfold TestedInv
          rw [e1, e2, e3, e4]
          exact ⟨ht0, ht1⟩
        · split at hs
          · cases hs
            obtain ⟨e1, e2, e3, e4, -, -⟩ := closePasswordChan_proj { c with disp := .done } true
            unfold TestedInv
            rw [e1, e2, e3, e4]
            exact ⟨ht0, ht1⟩
          · cases hs; exact ⟨ht0, ht1⟩
      · rename_i i p hd
        split at hs
        · cases hs; exact ⟨ht0, ht1⟩
        · split at hs
          · cases hs
            refine ⟨ht0, ?_⟩
            show c.tested + (sumOver inFlight c.workers : Int) + ((c.queue ++ [p]).length : Int)
              ≤ ((pushedList (c.trace ++ [.pushed p])).length : Int)
            have : pushedList (c.trace ++ [.pushed p]) = pushedList c.trace ++ [p] := by
              rw [pushedList_snoc]; rfl
            rw [this]
            simp only [List.length_append, List.length_singleton]
            push_cast
            omega
          · cases hs
      · cases hs
    | workerRecv k =>
      replace hs : stepWorkerRecv c k = some c' := hs
      unfold stepWorkerRecv at hs
      split at hs
      · rename_i hk
        split at hs
        · rename_i p rest hq
          cases hs
          have hsum := sumOver_set inFlight c.workers k .idle (.verifying p) hk
          simp only [inFlight] at hsum
          refine ⟨ht0, ?_⟩
          show c.tested + (sumOver inFlight (c.workers.set k (.verifying p)) : Int)
            + (rest.length : Int) ≤ ((pushedList c.trace).length : Int)
          rw [hq] at ht1
          simp only [List.length_cons] at ht1
          push_cast at ht1
          omega
        · split at hs
          · cases hs
            obtain ⟨e1, e2, e3, e4, -, -⟩ := workerReturn_proj c k
            have hsum := sumOver_set inFlight c.workers k .idle .returned hk
            simp only [inFlight] at hsum
            unfold TestedInv
            rw [e1, e2, e3, e4]
            refine ⟨ht0, ?_⟩
            omega
          · cases hs
      · cases hs
    | workerDone k =>
      replace hs : stepWorkerDone c k = some c' := hs
      unfold stepWorkerDone at hs
      split at hs
      · rename_i hk
        split at hs
        · cases hs
          obtain ⟨e1, e2, e3, e4, -, -⟩ := workerReturn_proj c k
          have hsum := sumOver_set inFlight c.workers k .idle .returned hk
          simp only [inFlight] at hsum
          unfold TestedInv
          rw [e1, e2, e3, e4]
          refine ⟨ht0, ?_⟩
          omega
        · cases hs
      · cases hs
    | workerVerify k =>
      replace hs : stepWorkerVerify verify c k = some c' := hs
      unfold stepWorkerVerify at hs
      split at hs
      · rename_i p hk
        split at hs
        · cases hs
          have hsum := sumOver_set inFlight c.workers k (.verifying p) (.publishing p) hk
          simp only [inFlight] at hsum
          refine ⟨ht0, ?_⟩
          show c.tested + (sumOver inFlight (c.workers.set k (.publishing p)) : Int)
            + (c.queue.length : Int) ≤ ((pushedList c.trace).length : Int)
          omega
        · cases hs
          have hsum := sumOver_set inFlight c.workers k (.verifying p) .idle hk
          simp only [inFlight] at hsum
          have hw : wrapInt64 (c.tested + 1) = c.tested + 1 := by
            apply wrapInt64_small
            · omega
            · have : ((passwords.length : Nat) : Int) < 2 ^ 63 := by exact_mod_cast hT
              omega
          have hpl : pushedList (c.trace ++ [.progress (wrapInt64 (c.tested + 1))])
              = pushedList c.trace := by
            rw [pushedList_snoc]; exact List.append_nil _
          show 0 ≤ wrapInt64 (c.tested + 1) ∧
            wrapInt64 (c.tested + 1) + (sumOver inFlight (c.workers.set k .idle) : Int)
              + (c.queue.length : Int)
              ≤ ((pushedList (c.trace ++ [.progress (wrapInt64 (c.tested + 1))])).length : Int)
          rw [hpl, hw]
          constructor <;> omega
      · cases hs
    | workerPublish k =>
      replace hs : stepWorkerPublish c k = some c' := hs
      unfold stepWorkerPublish at hs
      split at hs
      · rename_i p hk
        have hsum := sumOver_set inFlight c.workers k (.publishing p) .returned hk
        simp only [inFlight] at hsum
        split at hs
        · cases hs
          obtain ⟨e1, e2, e3, e4, -, -⟩ :=
            workerReturn_proj { c with main := .closing, trace := c.trace ++ [.found p] } k
          have hpl : pushedList (c.trace ++ [.found p]) = pushedList c.trace := by
            rw [pushedList_snoc]; exact List.append_nil _
          unfold TestedInv
          rw [e1, e2, e3, e4]
          show 0 ≤ c.tested ∧ c.tested + (sumOver inFlight (c.workers.set k .returned) : Int)
            + (c.queue.length : Int) ≤ ((pushedList (c.trace ++ [.found p])).length : Int)
          rw [hpl]
          constructor <;> omega
        · cases hs
          obtain ⟨e1, e2, e3, e4, -, -⟩ := workerReturn_proj c k
          unfold TestedInv
          rw [e1, e2, e3, e4]
          constructor <;> omega
      · cases hs
    | timeout =>
      replace hs : stepTimeout c = some c' := hs
      unfold stepTimeout at hs
      split at hs
      · cases hs
        have hpl : pushedList (c.trace ++ [.noMatch]) = pushedList c.trace := by
          rw [pushedList_snoc]; exact List.append_nil _
        show 0 ≤ c.tested ∧ c.tested + (sumOver inFlight c.workers : Int)
          + (c.queue.length : Int) ≤ ((pushedList (c.trace ++ [.noMatch])).length : Int)
        rw [hpl]
        exact ⟨ht0, ht1⟩
      · cases hs
    | closeDone =>
      replace hs : stepCloseDone c = some c' := hs
      unfold stepCloseDone at hs
      split at hs
      · cases hs
        obtain ⟨e1, e2, e3, e4, -, -⟩ := closeDoneChan_proj { c with main := .waiting }
        unfold TestedInv
        rw [e1, e2, e3, e4]
        exact ⟨ht0, ht1⟩
      · cases hs
    | waitReturn =>
      replace hs : stepWaitReturn c = some c' := hs
      unfold stepWaitReturn at hs
      split at hs
      · split at hs
        · cases hs; exact ⟨ht0, ht1⟩
        · cases hs
      · cases hs

theorem testedInv_run {passwords : List String} {verify : String → Bool}
    (hT : passwords.length < 2 ^ 63) (sched : List Action) : ∀ {c c' : Config},
    Inv passwords verify c → TestedInv c → run passwords verify c sched = some c' →
    TestedInv c' := by
  induction sched with
  | nil =>
    intro c c' _ ht hr
    simp [run] at hr
    subst hr
    exact ht
  | cons a rest ih =>
    intro c c' h ht hr
    simp only [run] at hr
    split at hr
    · cases hr
    · rename_i c1 hs
      exact ih (inv_step h a hs) (testedInv_step hT h ht hs) hr

theorem stepsLeft_step {passwords : List String} {verify : String → Bool} {c c' : Config}
    {a : Action} (h : Inv passwords verify c) (hs : step passwords verify c a = some c') :
    stepsLeft passwords.length c' < stepsLeft passwords.length c := by
  unfold step at hs
  split at hs
  · cases hs
  · cases a with
    | startWorker =>
      replace hs : stepMainStartWorker c = some c' := hs
      unfold stepMainStartWorker at hs
      split at hs
      · rename_i i hm
        split at hs
        · rename_i hi
          cases hs
          simp only [stepsLeft, hm, mainWeight, sumOver_append, workerWeight]
          omega
        · cases hs
          simp only [stepsLeft, hm, mainWeight]
          omega
      · cases hs
    | startDispatcher =>
      replace hs : stepMainStartDispatcher c = some c' := hs
      unfold stepMainStartDispatcher at hs
      split at hs
      · rename_i hm
        have hds := h.dispStarted
        rw [hm] at hds
        have hd0 : c.disp = .notStarted := by simpa [mainStarted] using hds
        cases hs
        simp only [stepsLeft, hm, hd0, mainWeight, dispWeight]
        omega
      · cases hs
    | enterSelect =>
      replace hs : stepMainEnterSelect c = some c' := hs
      unfold stepMainEnterSelect at hs
      split at hs
      · rename_i hm
        cases hs
        simp only [stepsLeft, hm, mainWeight]
        omega
      · cases hs
    | dispatcher =>
      replace hs : stepDispatcher passwords c = some c' := hs
      unfold stepDispatcher at hs
      split at hs
      · rename_i i hd
        split at hs
        · cases hs
          obtain ⟨-, e2, e3, -, e5, e6⟩ := closePasswordChan_proj { c with disp := .done } false
          simp only [stepsLeft, e2, e3, e5, e6, hd, dispWeight]
          omega
        · split at hs
          · cases hs
            obtain ⟨-, e2, e3, -, e5, e6⟩ := closePasswordChan_proj { c with disp := .done } true
            simp only [stepsLeft, e2, e3, e5, e6, hd, dispWeight]
            omega
          · cases hs
            simp only [stepsLeft, hd, dispWeight]
            omega
      · rename_i i p hd
        have hp := h.sendOk i p hd
        have hi : i < passwords.length := by
          rw [List.getElem?_eq_some] at hp
          exact hp.1
        split at hs
        · cases hs
          have := h.notPanicked
          rename_i hq
          have hqc := h.queueClosedIff
          rw [hd] at hqc
          simp [hq] at hqc
        · split at hs
          · cases hs
            simp only [stepsLeft, hd, dispWeight, List.length_append, List.length_singleton]
            omega
          · cases hs
      · cases hs
    | workerRecv k =>
      replace hs : stepWorkerRecv c k = some c' := hs
      unfold stepWorkerRecv at hs
      split at hs
      · rename_i hk
        split at hs
        · rename_i p rest hq
          cases hs
          have hsum := sumOver_set workerWeight c.workers k .idle (.verifying p) hk
          simp only [workerWeight] at hsum
          simp only [stepsLeft, hq, List.length_cons]
          omega
        · split at hs
          · cases hs
            obtain ⟨-, e2, e3, -, e5, e6⟩ := workerReturn_proj c k
            have hsum := sumOver_set workerWeight c.workers k .idle .returned hk
            simp only [workerWeight] at hsum
            simp only [stepsLeft, e2, e3, e5, e6]
            omega
          · cases hs
      · cases hs
    | workerDone k =>
      replace hs : stepWorkerDone c k = some c' := hs
      unfold stepWorkerDone at hs
      split at hs
      · rename_i hk
        split at hs
        · cases hs
          obtain ⟨-, e2, e3, -, e5, e6⟩ := workerReturn_proj c k
          have hsum := sumOver_set workerWeight c.workers k .idle .returned hk
          simp only [workerWeight] at hsum
          simp only [stepsLeft, e2, e3, e5, e6]
          omega
        · cases hs
      · cases hs
    | workerVerify k =>
      replace hs : stepWorkerVerify verify c k = some c' := hs
      unfold stepWorkerVerify at hs
      split at hs
      · rename_i p hk
        split at hs
        · cases hs
          have hsum := sumOver_set workerWeight c.workers k (.verifying p) (.publishing p) hk
          simp only [workerWeight] at hsum
          simp only [stepsLeft]
          omega
        · cases hs
          have hsum := sumOver_set workerWeight c.workers k (.verifying p) .idle hk
          simp only [workerWeight] at hsum
          simp only [stepsLeft]
          omega
      · cases hs
    | workerPublish k =>
      replace hs : stepWorkerPublish c k = some c' := hs
      unfold stepWorkerPublish at hs
      split at hs
      · rename_i p hk
        have hsum := sumOver_set workerWeight c.workers k (.publishing p) .returned hk
        simp only [workerWeight] at hsum
        split at hs
        · rename_i hm
          cases hs
          obtain ⟨-, e2, e3, -, e5, e6⟩ :=
            workerReturn_proj { c with main := .closing, trace := c.trace ++ [.found p] } k
          simp only [stepsLeft, e2, e3, e5, e6, hm, mainWeight]
          omega
        · cases hs
          obtain ⟨-, e2, e3, -, e5, e6⟩ := workerReturn_proj c k
          simp only [stepsLeft, e2, e3, e5, e6]
          omega
      · cases hs
    | timeout =>
      replace hs : stepTimeout c = some c' := hs
      unfold stepTimeout at hs
      split at hs
      · rename_i hm
        cases hs
        simp only [stepsLeft, hm, mainWeight]
        omega
      · cases hs
    | closeDone =>
      replace hs : stepCloseDone c = some c' := hs
      unfold stepCloseDone at hs
      split at hs
      · rename_i hm
        cases hs
        obtain ⟨-, e2, e3, -, e5, e6⟩ := closeDoneChan_proj { c with main := .waiting }
        simp only [stepsLeft, e2, e3, e5, e6, hm, mainWeight]
        omega
      · cases hs
    | waitReturn =>
      replace hs : stepWaitReturn c = some c' := hs
      unfold stepWaitReturn at hs
      split at hs
      · rename_i hm
        split at hs
        · cases hs
          simp only [stepsLeft, hm, mainWeight]
          omega
        · cases hs
      · cases hs

theorem stepsLeft_run {passwords : List String} {verify : String → Bool}
    (sched : List Action) : ∀ {c c' : Config}, Inv passwords verify c →
    run passwords verify c sched = some c' →
    stepsLeft passwords.length c' + sched.length ≤ stepsLeft passwords.length c := by
  induction sched with
  | nil =>
    intro c c' _ hr
    simp [run] at hr
    subst hr
    simp
  | cons a rest ih =>
    intro c c' h hr
    simp only [run] at hr
    split at hr
    · cases hr
    · rename_i c1 hs
      have h1 := stepsLeft_step h hs
      have h2 := ih (inv_step h a hs) hr
      simp only [List.length_cons]
      omega

theorem exists_live : ∀ (ws : List WorkerPc), sumOver live ws ≠ 0 →
    ∃ (k : Nat) (w : WorkerPc), ws[k]? = some w ∧ w ≠ WorkerPc.returned := by
  intro ws
  induction ws with
  | nil => intro h; simp [sumOver] at h
  | cons w ws ih =>
    intro h
    by_cases hw : w = WorkerPc.returned
    · subst hw
      have : sumOver live ws ≠ 0 := by simpa [sumOver, live] using h
      obtain ⟨k, x, hk, hx⟩ := ih this
      exact ⟨k + 1, x, by simpa using hk, hx⟩
    · exact ⟨0, w, by simp, hw⟩

theorem all_returned : ∀ (ws : List WorkerPc), sumOver live ws = 0 →
    ∀ w ∈ ws, w = .returned := by
  intro ws
  induction ws with
  | nil => intro _ w hw; simp at hw
  | cons x xs ih =>
    intro h w hw
    have hsum : live x + sumOver live xs = 0 := by simpa [sumOver] using h
    rcases List.mem_cons.mp hw with rfl | hw
    · cases w <;> simp [live] at hsum ⊢
    · exact ih (by omega) w hw

theorem step_enabled {passwords : List String} {verify : String → Bool} {c : Config}
    (h : Inv passwords verify c) (hm : c.main ≠ .returned) :
    ∃ a c', step passwords verify c a = some c' := by
  have hst : ∀ a, step passwords verify c a = stepAction passwords verify c a := by
    intro a
    simp [step, h.notPanicked, hm]
  have hdc := h.doneClosedIff
  have hwl := h.wgLive
  cases hmain : c.main with
  | startWorkers i =>
    refine ⟨.startWorker, ?_⟩
    rw [hst]
    simp only [stepAction, stepMainStartWorker, hmain]
    split <;> exact ⟨_, rfl⟩
  | startDispatcher =>
    refine ⟨.startDispatcher, ?_⟩
    rw [hst]
    simp only [stepAction, stepMainStartDispatcher, hmain]
    exact ⟨_, rfl⟩
  | entering =>
    refine ⟨.enterSelect, ?_⟩
    rw [hst]
    simp only [stepAction, stepMainEnterSelect, hmain]
    exact ⟨_, rfl⟩
  | select =>
    refine ⟨.timeout, ?_⟩
    rw [hst]
    simp only [stepAction, stepTimeout, hmain]
    exact ⟨_, rfl⟩
  | closing =>
    refine ⟨.closeDone, ?_⟩
    rw [hst]
    simp only [stepAction, stepCloseDone, hmain]
    exact ⟨_, rfl⟩
  | waiting =>
    rw [hmain] at hdc
    have hdone : c.doneClosed = true := by simpa [mainCancelled] using hdc
    by_cases hw : c.wg = 0
    · refine ⟨.waitReturn, ?_⟩
      rw [hst]
      simp only [stepAction, stepWaitReturn, hmain, hw, if_true]
      exact ⟨_, rfl⟩
    · have hl : sumOver live c.workers ≠ 0 := by rw [← hwl]; exact hw
      obtain ⟨k, w, hk, hne⟩ := exists_live c.workers hl
      cases w with
      | idle =>
        refine ⟨.workerDone k, ?_⟩
        rw [hst]
        simp only [stepAction, stepWorkerDone, hk, hdone, if_true]
        exact ⟨_, rfl⟩
      | verifying p =>
        refine ⟨.workerVerify k, ?_⟩
        rw [hst]
        simp only [stepAction, stepWorkerVerify, hk]
        split <;> exact ⟨_, rfl⟩
      | publishing p =>
        refine ⟨.workerPublish k, ?_⟩
        rw [hst]
        simp only [stepAction, stepWorkerPublish, hk, hmain]
        exact ⟨_, rfl⟩
      | returned => exact absurd rfl hne
  | returned => exact absurd hmain hm
/-! ## Further lemmas for the claims -/

theorem wrapInt64_range (x : Int) : -(2 : Int) ^ 63 ≤ wrapInt64 x ∧ wrapInt64 x < (2 : Int) ^ 63 := by
  unfold wrapInt64
  norm_num
  omega

theorem foundList_coordEvents (tr : List Event) : foundList (coordEvents tr) = foundList tr := by
  induction tr with
  | nil => rfl
  | cons e es ih =>
    cases e <;> simp [foundList, coordEvents, List.filter_cons] at ih ⊢ <;> exact ih

theorem le_sumOver (f : WorkerPc → Nat) : ∀ (ws : List WorkerPc) (k : Nat) (w : WorkerPc),
    ws[k]? = some w → f w ≤ sumOver f ws := by
  intro ws
  induction ws with
  | nil => intro k w h; simp at h
  | cons x xs ih =>
    intro k w h
    cases k with
    | zero =>
      simp at h
      subst h
      simp [sumOver]
    | succ k =>
      simp at h
      have := ih k w h
      simp [sumOver] at this ⊢
      omega

theorem reparse_formatDuration (S : Nat) : reparse (formatDuration (S : Int)) = some S := by
  rw [formatDuration_natCast, reparse_humanizeSpec]

/-! ## The claims -/

/-- C1: for every non-negative `S` the components that `formatDuration` computes sum back to
`S` with 604800, 86400, 3600, 60 and 1 seconds per unit, and re-parsing the emitted string
and summing its units gives `S`. -/
theorem formatDuration_components_sum (S : Int) (h : 0 ≤ S) :
    (decompose S).weeks * 604800 + (decompose S).days * 86400 + (decompose S).hours * 3600
      + (decompose S).minutes * 60 + (decompose S).seconds = S ∧
    reparse (formatDuration S) = some S.toNat := by
  obtain ⟨n, rfl⟩ := Int.eq_ofNat_of_zero_le h
  refine ⟨?_, ?_⟩
  · rw [decompose_natCast]
    simp only
    push_cast
    omega
  · rw [reparse_formatDuration]
    rfl

/-- C1 at `S = 90061 = 86400 + 3600 + 60 + 1`. -/
theorem formatDuration_components_sum_witness :
    (0 : Int) ≤ 90061 ∧
    decompose 90061 = { weeks := 0, days := 1, hours := 1, minutes := 1, seconds := 1 } ∧
    ((decompose 90061).weeks * 604800 + (decompose 90061).days * 86400
      + (decompose 90061).hours * 3600 + (decompose 90061).minutes * 60
      + (decompose 90061).seconds = 90061 ∧
     reparse (formatDuration 90061) = some (90061 : Int).toNat) :=
  ⟨by decide, by decide, formatDuration_components_sum 90061 (by decide)⟩

/-- C2: for every non-negative `S`, `formatDuration S` is the reference rendering (the
non-zero components in the order weeks, days, hours, minutes, seconds, each written
`<n> <unit>`, joined with a comma and a space, or `0 seconds` when there is none); it is the
literal `0 seconds` exactly when `S = 0`, which is exactly when every component is zero. -/
theorem formatDuration_eq_humanizeSpec (S : Int) (h : 0 ≤ S) :
    formatDuration S = humanizeSpec S.toNat ∧
    (formatDuration S = "0 seconds" ↔ S = 0) ∧
    (decompose S = { weeks := 0, days := 0, hours := 0, minutes := 0, seconds := 0 } ↔ S = 0) := by
  obtain ⟨n, rfl⟩ := Int.eq_ofNat_of_zero_le h
  refine ⟨?_, ?_, ?_⟩
  · rw [formatDuration_natCast]
    rfl
  · constructor
    · intro he
      have h1 := reparse_formatDuration n
      rw [he] at h1
      have h2 : reparse "0 seconds" = some 0 := by decide
      rw [h2] at h1
      have : n = 0 := (Option.some.inj h1).symm
      simp [this]
    · intro he
      have : n = 0 := by exact_mod_cast he
      subst this
      decide
  · rw [decompose_natCast]
    constructor
    · intro he
      have h1 := congrArg Parts.weeks he
      have h2 := congrArg Parts.days he
      have h3 := congrArg Parts.hours he
      have h4 := congrArg Parts.minutes he
      have h5 := congrArg Parts.seconds he
      simp only at h1 h2 h3 h4 h5
      omega
    · intro he
      have : n = 0 := by exact_mod_cast he
      subst this
      rfl

/-- C2 at `S = 90061`, with the two renderings the specification gives. -/
theorem formatDuration_eq_humanizeSpec_witness :
    (0 : Int) ≤ 90061 ∧
    formatDuration 90061 = "1 days, 1 hours, 1 minutes, 1 seconds" ∧
    formatDuration 0 = "0 seconds" ∧
    (formatDuration 90061 = humanizeSpec (90061 : Int).toNat ∧
     (formatDuration 90061 = "0 seconds" ↔ (90061 : Int) = 0) ∧
     (decompose 90061 = { weeks := 0, days := 0, hours := 0, minutes := 0, seconds := 0 }
        ↔ (90061 : Int) = 0)) :=
  ⟨by decide, by decide, by decide, formatDuration_eq_humanizeSpec 90061 (by decide)⟩

/-- C10: for every non-negative `S` the decomposition is the canonical mixed-radix one: weeks
is `S / 604800`, days is at most 6, hours at most 23, minutes and seconds at most 59, none
negative; and two different non-negative inputs never give the same string. -/
theorem formatDuration_canonical (S : Int) (h : 0 ≤ S) :
    (decompose S).weeks = S / 604800 ∧
    (0 ≤ (decompose S).days ∧ (decompose S).days ≤ 6) ∧
    (0 ≤ (decompose S).hours ∧ (decompose S).hours ≤ 23) ∧
    (0 ≤ (decompose S).minutes ∧ (decompose S).minutes ≤ 59) ∧
    (0 ≤ (decompose S).seconds ∧ (decompose S).seconds ≤ 59) ∧
    ∀ S' : Int, 0 ≤ S' → formatDuration S = formatDuration S' → S = S' := by
  obtain ⟨n, rfl⟩ := Int.eq_ofNat_of_zero_le h
  rw [decompose_natCast]
  simp only
  refine ⟨by push_cast; rfl, by omega, by omega, by omega, by omega, ?_⟩
  intro S' h' he
  obtain ⟨m, rfl⟩ := Int.eq_ofNat_of_zero_le h'
  have h1 := reparse_formatDuration n
  have h2 := reparse_formatDuration m
  rw [he, h2] at h1
  have : m = n := Option.some.inj h1
  simp [this]

/-- C10 at `S = 90061`. -/
theorem formatDuration_canonical_witness :
    (0 : Int) ≤ 90061 ∧
    ((decompose 90061).weeks = 90061 / 604800 ∧
     (0 ≤ (decompose 90061).days ∧ (decompose 90061).days ≤ 6) ∧
     (0 ≤ (decompose 90061).hours ∧ (decompose 90061).hours ≤ 23) ∧
     (0 ≤ (decompose 90061).minutes ∧ (decompose 90061).minutes ≤ 59) ∧
     (0 ≤ (decompose 90061).seconds ∧ (decompose 90061).seconds ≤ 59) ∧
     ∀ S' : Int, 0 ≤ S' → formatDuration 90061 = formatDuration S' → 90061 = S') :=
  ⟨by decide, formatDuration_canonical 90061 (by decide)⟩

/-- C8 as the code has it: the estimate has no guard on a zero elapsed time. Whenever the
counter value is at least 1 and the elapsed time is 0, the rate is `+Inf` (not 0), the
estimate is 0 seconds and its text is `0 seconds`, without a fault; and for every elapsed
time `estimatedSeconds` is `int(float64(remaining) / rate * 60)` with
`remaining = total - currentTested`, whatever the rate. The rounding `rnd` is any rounding
that maps 0 to 0 and 64-bit integers to finite values of the same sign. -/
theorem estimate_zero_elapsed_unguarded (rnd : ℚ → F64) (undef currentTested total : Int)
    (h0 : rnd 0 = .finite 0)
    (h1 : ∀ n : Int, -(2 : Int) ^ 63 ≤ n → n < (2 : Int) ^ 63 →
      ∃ x : ℚ, rnd (n : ℚ) = .finite x ∧ (0 < n → 0 < x))
    (hc : 1 ≤ currentTested) (hc' : currentTested < (2 : Int) ^ 63) :
    estimate rnd undef currentTested total 0 = (.posInf, 0) ∧
    estimatedTime rnd undef currentTested total 0 = "0 seconds" ∧
    ∀ elapsed : Int, (estimate rnd undef currentTested total elapsed).2
      = F64.toInt undef (F64.mul rnd
          (F64.div rnd (F64.ofInt rnd (wrapInt64 (total - currentTested)))
            (estimate rnd undef currentTested total elapsed).1) (.finite 60)) := by
  have key : estimate rnd undef currentTested total 0 = (.posInf, 0) := by
    obtain ⟨x, hx, hpos⟩ := h1 currentTested (by omega) hc'
    obtain ⟨y, hy, -⟩ := h1 (wrapInt64 (total - currentTested))
      (wrapInt64_range _).1 (wrapInt64_range _).2
    have hxp : 0 < x := hpos (by omega)
    have hm : durationMinutes rnd 0 = .finite 0 := by
      simp [durationMinutes, F64.ofInt, h0, F64.div, F64.add]
    simp [estimate, hm, F64.ofInt, hx, hy, F64.div, hxp, F64.mul, h0, F64.toInt]
  refine ⟨key, ?_, fun _ => rfl⟩
  unfold estimatedTime
  rw [key]
  decide

/-- C8 amended, at the first failed attempt of a run over five candidates. -/
theorem estimate_zero_elapsed_unguarded_witness :
    exactRounding 0 = .finite 0 ∧
    (∀ n : Int, -(2 : Int) ^ 63 ≤ n → n < (2 : Int) ^ 63 →
      ∃ x : ℚ, exactRounding (n : ℚ) = .finite x ∧ (0 < n → 0 < x)) ∧
    (1 : Int) ≤ 1 ∧ (1 : Int) < (2 : Int) ^ 63 ∧
    (estimate exactRounding 0 1 5 0 = (.posInf, 0) ∧
     estimatedTime exactRounding 0 1 5 0 = "0 seconds" ∧
     ∀ elapsed : Int, (estimate exactRounding 0 1 5 elapsed).2
       = F64.toInt 0 (F64.mul exactRounding
           (F64.div exactRounding (F64.ofInt exactRounding (wrapInt64 (5 - 1)))
             (estimate exactRounding 0 1 5 elapsed).1) (.finite 60))) :=
  ⟨rfl, fun n _ _ => ⟨(n : ℚ), rfl, fun hn => by exact_mod_cast hn⟩, by decide, by decide,
   estimate_zero_elapsed_unguarded exactRounding 0 1 5 rfl
     (fun n _ _ => ⟨(n : ℚ), rfl, fun hn => by exact_mod_cast hn⟩) (by decide) (by decide)⟩

/-- C8 as stated fails: with one attempt made, five candidates and a zero elapsed time the
rate is not 0 and the estimate is shown as a number of seconds. -/
theorem estimate_zero_elapsed_counterexample :
    (estimate exactRounding 0 1 5 0).1 = .posInf ∧
    (estimate exactRounding 0 1 5 0).1 ≠ .finite 0 ∧
    (estimate exactRounding 0 1 5 0).2 = 0 ∧
    estimatedTime exactRounding 0 1 5 0 = "0 seconds" := by
  have key : estimate exactRounding 0 1 5 0 = (.posInf, 0) := by
    simp [estimate, durationMinutes, F64.ofInt, F64.div, F64.add, F64.mul, F64.toInt,
      exactRounding, wrapInt64]
  refine ⟨by rw [key], by rw [key]; simp, by rw [key], ?_⟩
  unfold estimatedTime
  rw [key]
  decide

/-- C3 as the code has it: in every run the coordinator reports at most one found result, and
a found result it reports is a candidate of the list that the verifier accepted. -/
theorem found_result_accepted (passwords : List String) (verify : String → Bool)
    (sched : List Action) (c : Config) (hr : run passwords verify init sched = some c) :
    (foundList c.trace).length ≤ 1 ∧
    ∀ p ∈ foundList c.trace, p ∈ passwords ∧ verify p = true := by
  have h := inv_reachable sched hr
  have hco := h.coord
  rw [← foundList_coordEvents]
  have aux : ∀ r, validReport passwords verify r →
      (foundList [r]).length ≤ 1 ∧ ∀ p ∈ foundList [r], p ∈ passwords ∧ verify p = true := by
    intro r hv
    cases r <;> simp [foundList, validReport] at hv ⊢
    exact hv
  have aux2 : ∀ r, foundList [r, Event.doneClosed] = foundList [r] := by
    intro r
    cases r <;> simp [foundList]
  cases hmain : c.main <;> rw [hmain] at hco <;> simp only [coordShape] at hco
  case closing =>
    obtain ⟨r, hr', hv⟩ := hco
    rw [hr']
    exact aux r hv
  case waiting =>
    obtain ⟨r, hr', hv⟩ := hco
    rw [hr', aux2]
    exact aux r hv
  case returned =>
    obtain ⟨r, hr', hv⟩ := hco
    rw [hr', aux2]
    exact aux r hv
  all_goals
    rw [hco]
    simp [foundList]

/-- C3 amended, on the scenario: a run that reports `def` and nothing else. -/
theorem found_result_accepted_witness :
    run scenarioPasswords scenarioVerify init foundSchedule = some foundFinal ∧
    foundList foundFinal.trace = ["def"] ∧
    ((foundList foundFinal.trace).length ≤ 1 ∧
     ∀ p ∈ foundList foundFinal.trace, p ∈ scenarioPasswords ∧ scenarioVerify p = true) :=
  ⟨by decide, by decide,
   found_result_accepted scenarioPasswords scenarioVerify foundSchedule foundFinal (by decide)⟩

/-- C3 as stated fails: on the scenario, when the timer fires while the verifiers still run,
or when worker 1 succeeds before the main goroutine waits in its `select`, the run ends with
the no-match outcome and the signal, although `def` is a candidate the verifier accepts. -/
theorem found_result_counterexample :
    (run scenarioPasswords scenarioVerify init timeoutSchedule).map
        (fun c => (c.main, coordEvents c.trace, foundList c.trace))
      = some (.returned, [.noMatch, .doneClosed], []) ∧
    (run scenarioPasswords scenarioVerify init earlySuccessSchedule).map
        (fun c => (c.main, coordEvents c.trace, foundList c.trace))
      = some (.returned, [.noMatch, .doneClosed], []) ∧
    "def" ∈ scenarioPasswords ∧ scenarioVerify "def" = true :=
  ⟨by decide, by decide, by decide, by decide⟩

/-- C4: in a run over `T` candidates the counter `tested` is never negative and never exceeds
`T` (it stays 0 for the empty list), every step leaves it unchanged except the return of a
failed verification, which adds exactly 1, so it never decreases. `T` is the length of a Go
slice, below `2 ^ 63`. -/
theorem tested_counter_monotone (passwords : List String) (verify : String → Bool)
    (sched : List Action) (c : Config) (hT : passwords.length < 2 ^ 63)
    (hr : run passwords verify init sched = some c) :
    0 ≤ c.tested ∧ c.tested ≤ (passwords.length : Int) ∧
    (passwords = [] → c.tested = 0) ∧
    ∀ a c', step passwords verify c a = some c' →
      c'.tested = c.tested + (if isFailedVerification verify c a = true then 1 else 0) ∧
      c.tested ≤ c'.tested := by
  have h := inv_reachable sched hr
  have ht := testedInv_run hT sched (inv_init passwords verify) testedInv_init hr
  have hPT := pushed_le_total h
  obtain ⟨ht0, ht1⟩ := ht
  have hTi : ((passwords.length : Nat) : Int) < 2 ^ 63 := by exact_mod_cast hT
  have hle : c.tested ≤ (passwords.length : Int) := by omega
  refine ⟨ht0, hle, ?_, ?_⟩
  · intro he
    subst he
    simp at hle
    omega
  · intro a c' hs
    have hst := step_tested hs
    by_cases hf : isFailedVerification verify c a = true
    · rw [if_pos hf] at hst ⊢
      have hin : 1 ≤ sumOver inFlight c.workers := by
        cases a with
        | workerVerify k =>
          simp only [isFailedVerification] at hf
          split at hf
          · rename_i p hk
            exact le_sumOver inFlight c.workers k _ hk
          · cases hf
        | _ => simp [isFailedVerification] at hf
      have hw : wrapInt64 (c.tested + 1) = c.tested + 1 := by
        apply wrapInt64_small
        · omega
        · omega
      rw [hst, hw]
      omega
    · rw [if_neg hf] at hst ⊢
      rw [hst]
      omega

/-- C4 on the scenario, at the configuration where the three verifiers run. -/
theorem tested_counter_monotone_witness :
    scenarioPasswords.length < 2 ^ 63 ∧
    run scenarioPasswords scenarioVerify init verifyingSchedule = some verifyingConfig ∧
    (step scenarioPasswords scenarioVerify verifyingConfig (.workerVerify 0)).map
        (fun c => c.tested) = some 1 ∧
    (0 ≤ verifyingConfig.tested ∧
     verifyingConfig.tested ≤ (scenarioPasswords.length : Int) ∧
     (scenarioPasswords = [] → verifyingConfig.tested = 0) ∧
     ∀ a c', step scenarioPasswords scenarioVerify verifyingConfig a = some c' →
       c'.tested = verifyingConfig.tested
         + (if isFailedVerification scenarioVerify verifyingConfig a = true then 1 else 0) ∧
       verifyingConfig.tested ≤ c'.tested) :=
  ⟨by decide, by decide, by decide,
   tested_counter_monotone scenarioPasswords scenarioVerify verifyingSchedule verifyingConfig
     (by decide) (by decide)⟩

/-- C5 as the code has it: when the coordinator has returned, each of the 10 workers has
terminated, the wait-group counter is 0 and no goroutine takes a further step. -/
theorem workers_terminated_at_return (passwords : List String) (verify : String → Bool)
    (sched : List Action) (c : Config) (hr : run passwords verify init sched = some c)
    (hm : c.main = .returned) :
    c.workers.length = workerCount ∧ (∀ w ∈ c.workers, w = WorkerPc.returned) ∧ c.wg = 0 ∧
    ∀ a, step passwords verify c a = none := by
  have h := inv_reachable sched hr
  have hsp := h.spawned
  have hwg := h.returnedWg hm
  have hl := h.wgLive
  rw [hm] at hsp
  refine ⟨hsp.1, all_returned c.workers (by omega), hwg, ?_⟩
  intro a
  simp [step, hm]

/-- C5 amended, on the scenario. -/
theorem workers_terminated_at_return_witness :
    run scenarioPasswords scenarioVerify init foundSchedule = some foundFinal ∧
    foundFinal.main = .returned ∧
    (foundFinal.workers.length = workerCount ∧
     (∀ w ∈ foundFinal.workers, w = WorkerPc.returned) ∧ foundFinal.wg = 0 ∧
     ∀ a, step scenarioPasswords scenarioVerify foundFinal a = none) :=
  ⟨by decide, by decide,
   workers_terminated_at_return scenarioPasswords scenarioVerify foundSchedule foundFinal
     (by decide) (by decide)⟩

/-- C5 as stated fails: over 21 candidates of which the first is accepted, the coordinator
returns while the dispatcher is still in the send of `p20`, with the buffer of 10 full and
the queue not closed. -/
theorem dispatcher_not_awaited_counterexample :
    (run candidates21 acceptFirst21 init blockedSchedule21).map
        (fun c => (c.main, c.disp, c.queue.length, c.queueClosed, sumOver live c.workers))
      = some (.returned, .send 20 "p20", 10, false, 0) := by
  decide

/-- C7 as the code has it: in every run the coordinator's events are none before the outcome,
one outcome (found or no match) while it closes `doneChan`, and that outcome followed by one
raise of the signal from `wg.Wait()` on; a run takes at most `5 * T + 29` steps and can take
a step as long as `main` has not returned, so every run ends returned with exactly one
outcome; the deadline is `T` times one second for `T` up to 9223372036. -/
theorem coordinator_one_outcome (passwords : List String) (verify : String → Bool)
    (sched : List Action) (c : Config) (hr : run passwords verify init sched = some c) :
    coordShape passwords verify c.main (coordEvents c.trace) ∧
    sched.length ≤ 5 * passwords.length + 29 ∧
    (c.main ≠ .returned → ∃ a c', step passwords verify c a = some c') ∧
    (c.main = .returned →
      ∃ r, (r = Event.noMatch ∨ ∃ p, r = Event.found p) ∧
        coordEvents c.trace = [r, Event.doneClosed]) ∧
    (passwords.length ≤ 9223372036 →
      timeoutDuration (passwords.length : Int) = (passwords.length : Int) * 1000000000) := by
  have h := inv_reachable sched hr
  have hlen := stepsLeft_run sched (inv_init passwords verify) hr
  refine ⟨h.coord, ?_, fun hm => step_enabled h hm, ?_, ?_⟩
  · have : stepsLeft passwords.length init = 5 * passwords.length + 29 := by
      simp [stepsLeft, init, mainWeight, dispWeight, sumOver, workerCount]
      omega
    omega
  · intro hm
    have hco := h.coord
    rw [hm] at hco
    obtain ⟨r, hr', hv⟩ := hco
    refine ⟨r, ?_, hr'⟩
    cases r <;> simp [validReport] at hv ⊢
  · intro hT
    have hTi : ((passwords.length : Nat) : Int) ≤ 9223372036 := by exact_mod_cast hT
    have e1 : wrapInt64 (passwords.length : Int) = (passwords.length : Int) :=
      wrapInt64_small _ (by omega) (by norm_num; omega)
    unfold timeoutDuration
    rw [e1]
    exact wrapInt64_small _ (by omega) (by norm_num; omega)

/-- C7 amended, on the scenario. -/
theorem coordinator_one_outcome_witness :
    run scenarioPasswords scenarioVerify init foundSchedule = some foundFinal ∧
    coordEvents foundFinal.trace = [.found "def", .doneClosed] ∧
    timeoutDuration 3 = 3000000000 ∧
    (coordShape scenarioPasswords scenarioVerify foundFinal.main (coordEvents foundFinal.trace) ∧
     foundSchedule.length ≤ 5 * scenarioPasswords.length + 29 ∧
     (foundFinal.main ≠ .returned →
       ∃ a c', step scenarioPasswords scenarioVerify foundFinal a = some c') ∧
     (foundFinal.main = .returned →
       ∃ r, (r = Event.noMatch ∨ ∃ p, r = Event.found p) ∧
         coordEvents foundFinal.trace = [r, Event.doneClosed]) ∧
     (scenarioPasswords.length ≤ 9223372036 →
       timeoutDuration (scenarioPasswords.length : Int)
         = (scenarioPasswords.length : Int) * 1000000000)) :=
  ⟨by decide, by decide, by decide,
   coordinator_one_outcome scenarioPasswords scenarioVerify foundSchedule foundFinal
     (by decide)⟩

/-- C7 as stated fails in its deadline: for 9223372037 candidates the `int64` nanosecond count
wraps around to a negative duration, not 9223372037 seconds. -/
theorem timeout_deadline_counterexample :
    timeoutDuration 9223372037 = -9223372036709551616 ∧
    timeoutDuration 9223372037 ≠ 9223372037 * 1000000000 ∧
    timeoutDuration 9223372036 = 9223372036 * 1000000000 := by
  decide

/-- C9 as the code has it: in every run the dispatcher's events are the pushes of the first
`n` candidates in their order followed by the closes of the queue, of which there is at most
one, and exactly one once the dispatcher has returned; when that close is the one after the
loop (no cancellation observed), all candidates were pushed. -/
theorem dispatcher_pushes_then_closes (passwords : List String) (verify : String → Bool)
    (sched : List Action) (c : Config) (hr : run passwords verify init sched = some c) :
    ∃ n, n ≤ passwords.length ∧
      dispEvents c.trace
        = (passwords.take n).map Event.pushed ++ (closeList c.trace).map Event.queueClosed ∧
      (closeList c.trace).length ≤ 1 ∧
      ((closeList c.trace).length = 1 ↔ c.disp = .done) ∧
      (false ∈ closeList c.trace → n = passwords.length) := by
  have h := inv_reachable sched hr
  have hcl := h.closeLen
  have hqc := h.queueClosedIff
  refine ⟨(pushedList c.trace).length, pushed_le_total h, ?_, ?_, ?_, ?_⟩
  · rw [← h.pushedTake]
    exact h.dispShape
  · rw [hcl]
    split <;> omega
  · rw [hcl, ← hqc]
    by_cases hq : c.queueClosed = true <;> simp [hq]
  · intro hf
    rw [h.closeAll hf]

/-- C9 amended, on the scenario: three pushes, then the close after the loop. -/
theorem dispatcher_pushes_then_closes_witness :
    run scenarioPasswords scenarioVerify init foundSchedule = some foundFinal ∧
    dispEvents foundFinal.trace
      = [.pushed "abc", .pushed "def", .pushed "ghi", .queueClosed false] ∧
    (∃ n, n ≤ scenarioPasswords.length ∧
      dispEvents foundFinal.trace
        = (scenarioPasswords.take n).map Event.pushed
          ++ (closeList foundFinal.trace).map Event.queueClosed ∧
      (closeList foundFinal.trace).length ≤ 1 ∧
      ((closeList foundFinal.trace).length = 1 ↔ foundFinal.disp = .done) ∧
      (false ∈ closeList foundFinal.trace → n = scenarioPasswords.length)) :=
  ⟨by decide, by decide,
   dispatcher_pushes_then_closes scenarioPasswords scenarioVerify foundSchedule foundFinal
     (by decide)⟩

/-- C9 as stated fails: over 22 candidates of which the fourth is accepted, the dispatcher
waits in the send of `c20` on a full buffer while every worker has returned, so it can take no
step; `main` then returns, and the queue was never closed. -/
theorem dispatcher_never_closes_counterexample :
    (run candidates22 acceptFourth22 init blockedSchedule22).map
        (fun c => (c.main, c.disp, c.queue.length, sumOver live c.workers))
      = some (.waiting, .send 20 "c20", 10, 0) ∧
    (run candidates22 acceptFourth22 init blockedSchedule22).map
        (fun c => (stepDispatcher candidates22 c).isNone) = some true ∧
    (run candidates22 acceptFourth22 init (blockedSchedule22 ++ [.waitReturn])).map
        (fun c => (c.main, c.disp, closeList c.trace, (pushedList c.trace).length))
      = some (.returned, .send 20 "c20", [], 20) :=
  ⟨by decide, by decide, by decide⟩

end Go4KeePass
